import Mathlib

/-! Shallow embedding of the wire/circuit simulator in `src/main.rs`.

Modelling conventions:

* `Rc<RefCell<Wire>>` handles are modelled by indices into the circuit's
  wire list; `Connection::Connected(rc)` becomes `Connection.connected i`
  where `i` is the index of the referenced wire in the owning `Circuit`.
* In-place mutation is modelled by explicit state passing of the wire list.
* The set of wires whose `RefCell` is currently mutably borrowed (the chain
  of active `connect` / `get_signal` frames) is modelled by the list `vis`
  of wire indices.  `try_borrow` failing on such a wire is modelled by
  skipping members of `vis` during the name search; `borrow_mut`
  panicking on re-entry is modelled by the outer `none` of the evaluator.
* Machine integers are `Nat`; the u16 left shift reduces `% 65536` exactly
  where the Rust operation wraps.  A checked-arithmetic panic (shift amount
  at least 16, as raised by a build with overflow checks) is modelled by the
  outer `none`.
* Recursion carries explicit fuel; exhausted fuel also yields the outer
  `none`, and the development proves fuel bounds under which the functions
  never run out of fuel, so that the outer `none` of a sufficiently fuelled
  run corresponds exactly to a Rust panic.
-/

abbrev Signal := Nat

abbrev Name := String

inductive Connection where
  | disconnected (name : Name)
  | connected (idx : Nat)
deriving DecidableEq, Repr

inductive Input where
  | signal (s : Signal)
  | connection (c : Connection)
deriving DecidableEq, Repr

inductive Gate where
  | single (a : Input)
  | and (a b : Input)
  | or (a b : Input)
  | rshift (a : Input) (k : Nat)
  | lshift (a : Input) (k : Nat)
  | not (a : Input)
deriving DecidableEq, Repr

/-- One wire node: `struct Wire { name, gate, signal }`. -/
structure Wire where
  name : Name
  gate : Gate
  signal : Option Signal
deriving DecidableEq, Repr

abbrev Circuit := List Wire

/-- Raw definitions handed to `Circuit::assemble` (already parsed, as the
spec treats parsing as external): one `(wire name, gate)` pair per line. -/
abbrev Defs := List (Name × Gate)

/-- Whether an input is a literal or an already resolved reference
(one disjunct of `Gate::is_connected`). -/
def Input.connectedInput : Input → Bool
  | .signal _ => true
  | .connection (.connected _) => true
  | .connection (.disconnected _) => false

/-- `Gate::is_connected`: every operand is a literal or a resolved handle. -/
def Gate.is_connected : Gate → Bool
  | .single a => a.connectedInput
  | .and a b => a.connectedInput && b.connectedInput
  | .or a b => a.connectedInput && b.connectedInput
  | .rshift a _ => a.connectedInput
  | .lshift a _ => a.connectedInput
  | .not a => a.connectedInput

/-- Replace the wire at index `i` (no-op when out of range). -/
def updateAt : Circuit → Nat → (Wire → Wire) → Circuit
  | [], _, _ => []
  | w :: ws, 0, f => f w :: ws
  | w :: ws, Nat.succ n, f => w :: updateAt ws n f

def setGate (c : Circuit) (i : Nat) (g : Gate) : Circuit :=
  updateAt c i fun w => { w with gate := g }

def setSignal (c : Circuit) (i : Nat) (s : Option Signal) : Circuit :=
  updateAt c i fun w => { w with signal := s }

/-- First position at or after `j` (skipping borrowed indices `vis`) whose
name equals `m`; the engine behind `find_wire`'s linear search. -/
def findIdxFrom (vis : List Nat) (m : Name) : Nat → List Name → Option Nat
  | _, [] => none
  | j, n :: ns => if j ∉ vis ∧ n = m then some j else findIdxFrom vis m (j + 1) ns

/-- The search in `find_wire`: first wire whose `try_borrow` succeeds
(index not in `vis`) and whose name is `m`. -/
def findWireIdx (vis : List Nat) (c : Circuit) (m : Name) : Option Nat :=
  findIdxFrom vis m 0 (c.map Wire.name)

/-- `find_wire` inside `Gate::connect`: an already `Connected` reference is
kept; a `Disconnected` one is searched for, and on success the found wire is
itself recursively connected (`rec`) before the reference is bound. -/
def resolveConnF (rec : Circuit → Nat → Option Circuit) (vis : List Nat)
    (c : Circuit) : Connection → Option (Connection × Circuit)
  | .connected j => some (.connected j, c)
  | .disconnected m =>
    match findWireIdx vis c m with
    | none => some (.disconnected m, c)
    | some j =>
      match rec c j with
      | none => none
      | some c' => some (.connected j, c')

/-- `Gate::connect`: the big match that rebinds every `Connection` operand,
left operand first. -/
def connectGateF (rec : Circuit → Nat → Option Circuit) (vis : List Nat)
    (c : Circuit) : Gate → Option (Gate × Circuit)
  | .and (.connection a) (.connection b) =>
    match resolveConnF rec vis c a with
    | none => none
    | some (a', c₁) =>
      match resolveConnF rec vis c₁ b with
      | none => none
      | some (b', c₂) => some (.and (.connection a') (.connection b'), c₂)
  | .or (.connection a) (.connection b) =>
    match resolveConnF rec vis c a with
    | none => none
    | some (a', c₁) =>
      match resolveConnF rec vis c₁ b with
      | none => none
      | some (b', c₂) => some (.or (.connection a') (.connection b'), c₂)
  | .and (.connection a) (.signal s) =>
    match resolveConnF rec vis c a with
    | none => none
    | some (a', c₁) => some (.and (.connection a') (.signal s), c₁)
  | .and (.signal s) (.connection a) =>
    match resolveConnF rec vis c a with
    | none => none
    | some (a', c₁) => some (.and (.signal s) (.connection a'), c₁)
  | .or (.connection a) (.signal s) =>
    match resolveConnF rec vis c a with
    | none => none
    | some (a', c₁) => some (.or (.connection a') (.signal s), c₁)
  | .or (.signal s) (.connection a) =>
    match resolveConnF rec vis c a with
    | none => none
    | some (a', c₁) => some (.or (.signal s) (.connection a'), c₁)
  | .rshift (.connection a) k =>
    match resolveConnF rec vis c a with
    | none => none
    | some (a', c₁) => some (.rshift (.connection a') k, c₁)
  | .lshift (.connection a) k =>
    match resolveConnF rec vis c a with
    | none => none
    | some (a', c₁) => some (.lshift (.connection a') k, c₁)
  | .not (.connection a) =>
    match resolveConnF rec vis c a with
    | none => none
    | some (a', c₁) => some (.not (.connection a'), c₁)
  | .single (.connection a) =>
    match resolveConnF rec vis c a with
    | none => none
    | some (a', c₁) => some (.single (.connection a'), c₁)
  | g => some (g, c)

/-- `Wire::connect` on the wire at index `i`: return at once when the gate
is already fully connected, otherwise run `Gate::connect` with this wire
mutably borrowed (`i :: vis`) and store the rebound gate. -/
def connectWire : Nat → List Nat → Circuit → Nat → Option Circuit
  | 0, _, _, _ => none
  | Nat.succ fuel, vis, c, i =>
    match c.get? i with
    | none => some c
    | some w =>
      if w.gate.is_connected then some c
      else
        match connectGateF (connectWire fuel (i :: vis)) (i :: vis) c w.gate with
        | none => none
        | some (g', c') => some (setGate c' i g')

/-- The loop of `Circuit::assemble`: connect each wire in order. -/
def connectAllAux : Nat → Circuit → Nat → Option Circuit
  | 0, c, _ => some c
  | Nat.succ k, c, i =>
    match connectWire (c.length + 1) [] c i with
    | none => none
    | some c' => connectAllAux k c' (i + 1)

/-- The wires built by `Circuit::assemble` before linking (`Wire::parse`
leaves `signal: None`). -/
def mkCircuit (l : Defs) : Circuit := l.map fun d => ⟨d.1, d.2, none⟩

/-- `Circuit::assemble`: build all wire nodes, then connect every one. -/
def assembleDefs (l : Defs) : Option Circuit :=
  connectAllAux (mkCircuit l).length (mkCircuit l) 0

/-- `Connection::get_signal`: dangling yields no signal, a resolved handle
borrows the target wire and evaluates it. -/
def evalConnF (rec : Circuit → Nat → Option (Option Signal × Circuit × Nat))
    (c : Circuit) : Connection → Option (Option Signal × Circuit × Nat)
  | .disconnected _ => some (none, c, 0)
  | .connected j => rec c j

/-- `Input::get_signal`. -/
def evalInputF (rec : Circuit → Nat → Option (Option Signal × Circuit × Nat))
    (c : Circuit) : Input → Option (Option Signal × Circuit × Nat)
  | .signal s => some (some s, c, 0)
  | .connection co => evalConnF rec c co

/-- `Gate::get_signal`.  The result triple carries the value, the updated
circuit, and an instrumentation counter of how many wires actually ran
their gate logic (a cache miss).  `and_then`/`map` short circuiting of the
Rust code is mirrored exactly; a shift by 16 or more is the checked-shift
panic, i.e. the outer `none`. -/
def evalGateF (rec : Circuit → Nat → Option (Option Signal × Circuit × Nat))
    (c : Circuit) : Gate → Option (Option Signal × Circuit × Nat)
  | .single a => evalInputF rec c a
  | .and a b =>
    match evalInputF rec c a with
    | none => none
    | some (none, c₁, k₁) => some (none, c₁, k₁)
    | some (some x, c₁, k₁) =>
      match evalInputF rec c₁ b with
      | none => none
      | some (none, c₂, k₂) => some (none, c₂, k₁ + k₂)
      | some (some y, c₂, k₂) => some (some (x &&& y), c₂, k₁ + k₂)
  | .or a b =>
    match evalInputF rec c a with
    | none => none
    | some (none, c₁, k₁) => some (none, c₁, k₁)
    | some (some x, c₁, k₁) =>
      match evalInputF rec c₁ b with
      | none => none
      | some (none, c₂, k₂) => some (none, c₂, k₁ + k₂)
      | some (some y, c₂, k₂) => some (some (x ||| y), c₂, k₁ + k₂)
  | .rshift a k =>
    match evalInputF rec c a with
    | none => none
    | some (none, c₁, k₁) => some (none, c₁, k₁)
    | some (some s, c₁, k₁) =>
      if k < 16 then some (some (s >>> k), c₁, k₁) else none
  | .lshift a k =>
    match evalInputF rec c a with
    | none => none
    | some (none, c₁, k₁) => some (none, c₁, k₁)
    | some (some s, c₁, k₁) =>
      if k < 16 then some (some ((s <<< k) % 65536), c₁, k₁) else none
  | .not a =>
    match evalInputF rec c a with
    | none => none
    | some (none, c₁, k₁) => some (none, c₁, k₁)
    | some (some s, c₁, k₁) => some (some (s ^^^ 65535), c₁, k₁)

/-- `Wire::get_signal` on the wire at index `i`: borrowing an already
borrowed wire (`i ∈ vis`) is the `RefCell` panic; a cached signal is
returned at once with no gate work; otherwise the gate runs (with this
wire borrowed) and its result — also when it is `none` — is written back
into the cache slot. -/
def evalWire : Nat → List Nat → Circuit → Nat → Option (Option Signal × Circuit × Nat)
  | 0, _, _, _ => none
  | Nat.succ fuel, vis, c, i =>
    if i ∈ vis then none
    else
      match c.get? i with
      | none => none
      | some w =>
        match w.signal with
        | some v => some (some v, c, 0)
        | none =>
          match evalGateF (evalWire fuel (i :: vis)) c w.gate with
          | none => none
          | some (res, c', k) => some (res, setSignal c' i res, k + 1)

/-- The linear name lookup shared by `Circuit::get` and `Circuit::set`
(no wire is borrowed at that point, so nothing is skipped). -/
def circuitFind (c : Circuit) (m : Name) : Option Nat := findWireIdx [] c m

/-- `Circuit::get`: no wire of that name is a plain "no signal". -/
def circuitGet (c : Circuit) (m : Name) : Option (Option Signal × Circuit × Nat) :=
  match circuitFind c m with
  | none => some (none, c, 0)
  | some i => evalWire (c.length + 1) [] c i

/-- `Circuit::reset`: clear every cache slot, touch no gate. -/
def resetAll (c : Circuit) : Circuit := c.map fun w => { w with signal := none }

/-- `Circuit::set`: reset every cache first, then replace the named wire's
gate by a literal pass gate.  The `unwrap` on a missing name is the panic,
modelled by `Except.error` carrying the state observable at the panic. -/
def circuitSet (c : Circuit) (m : Name) (v : Signal) : Except Circuit Circuit :=
  match circuitFind (resetAll c) m with
  | none => Except.error (resetAll c)
  | some i => Except.ok (setGate (resetAll c) i (.single (.signal v)))

/-- Assemble from raw definitions and query one name, keeping only the
caller visible value: `none` is a panic, `some none` is "no signal". -/
def runGet (l : Defs) (m : Name) : Option (Option Signal) :=
  match assembleDefs l with
  | none => none
  | some c =>
    match circuitGet c m with
    | none => none
    | some t => some t.1

/-! ### Basic facts about `updateAt` -/

theorem length_updateAt (c : Circuit) (i : Nat) (f : Wire → Wire) :
    (updateAt c i f).length = c.length := by
  induction c generalizing i with
  | nil => rfl
  | cons w ws ih =>
    cases i with
    | zero => rfl
    | succ n => simpa [updateAt] using ih n

theorem get?_updateAt_self (c : Circuit) (i : Nat) (f : Wire → Wire) (w : Wire)
    (h : c.get? i = some w) : (updateAt c i f).get? i = some (f w) := by
  induction c generalizing i with
  | nil => simp at h
  | cons a ws ih =>
    cases i with
    | zero => simp_all [updateAt]
    | succ n => simpa [updateAt] using ih n h

theorem get?_updateAt_ne (c : Circuit) (i : Nat) (f : Wire → Wire) (j : Nat)
    (h : j ≠ i) : (updateAt c i f).get? j = c.get? j := by
  induction c generalizing i j with
  | nil => rfl
  | cons a ws ih =>
    cases i with
    | zero =>
      cases j with
      | zero => exact absurd rfl h
      | succ m => simp [updateAt]
    | succ n =>
      cases j with
      | zero => simp [updateAt]
      | succ m => simpa [updateAt] using ih n m (fun hc => h (by simp [hc]))

/-! ### The frame of evaluation: caches only ever fill up -/

/-- Evaluation changes a wire at most by filling its empty cache slot. -/
def wireMono (w w' : Wire) : Prop :=
  w'.name = w.name ∧ w'.gate = w.gate ∧
    (w'.signal = w.signal ∨ (w.signal = none ∧ ∃ v, w'.signal = some v))

theorem wireMono_refl (w : Wire) : wireMono w w := ⟨rfl, rfl, Or.inl rfl⟩

theorem wireMono_trans {w₁ w₂ w₃ : Wire} (h₁ : wireMono w₁ w₂) (h₂ : wireMono w₂ w₃) :
    wireMono w₁ w₃ := by
  obtain ⟨n₁, g₁, s₁⟩ := h₁
  obtain ⟨n₂, g₂, s₂⟩ := h₂
  refine ⟨n₂.trans n₁, g₂.trans g₁, ?_⟩
  rcases s₁ with h | ⟨hn, v, hv⟩
  · rcases s₂ with h' | ⟨hn', v', hv'⟩
    · exact Or.inl (h'.trans h)
    · exact Or.inr ⟨h ▸ hn', v', hv'⟩
  · rcases s₂ with h' | ⟨hn', v', hv'⟩
    · exact Or.inr ⟨hn, v, h'.trans hv⟩
    · exact absurd (hv ▸ hn') (by simp)

/-- Pointwise cache monotonicity between two circuit states. -/
def cacheMono (c c' : Circuit) : Prop :=
  c'.length = c.length ∧ ∀ j w, c.get? j = some w → ∃ w', c'.get? j = some w' ∧ wireMono w w'

/-- Cache monotonicity plus: every wire in the borrowed set `V` is untouched. -/
def stepOK (V : List Nat) (c c' : Circuit) : Prop :=
  cacheMono c c' ∧ ∀ j ∈ V, c'.get? j = c.get? j

theorem stepOK_refl (V : List Nat) (c : Circuit) : stepOK V c c :=
  ⟨⟨rfl, fun _ w h => ⟨w, h, wireMono_refl w⟩⟩, fun _ _ => rfl⟩

theorem stepOK_trans {V : List Nat} {c₁ c₂ c₃ : Circuit}
    (h₁ : stepOK V c₁ c₂) (h₂ : stepOK V c₂ c₃) : stepOK V c₁ c₃ := by
  obtain ⟨⟨l₁, m₁⟩, p₁⟩ := h₁
  obtain ⟨⟨l₂, m₂⟩, p₂⟩ := h₂
  refine ⟨⟨l₂.trans l₁, fun j w h => ?_⟩, fun j hj => (p₂ j hj).trans (p₁ j hj)⟩
  obtain ⟨w', hw', hm⟩ := m₁ j w h
  obtain ⟨w'', hw'', hm'⟩ := m₂ j w' hw'
  exact ⟨w'', hw'', wireMono_trans hm hm'⟩

theorem stepOK_of_sub {V V' : List Nat} {c c' : Circuit} (hsub : ∀ j ∈ V, j ∈ V')
    (h : stepOK V' c c') : stepOK V c c' :=
  ⟨h.1, fun j hj => h.2 j (hsub j hj)⟩

theorem evalConnF_stepOK {ev : Circuit → Nat → Option (Option Signal × Circuit × Nat)}
    {V : List Nat}
    (Hrec : ∀ c₀ j r c' k, ev c₀ j = some (r, c', k) → stepOK V c₀ c')
    {c : Circuit} {co : Connection} {r : Option Signal} {c' : Circuit} {k : Nat}
    (h : evalConnF ev c co = some (r, c', k)) : stepOK V c c' := by
  cases co with
  | disconnected m =>
    simp only [evalConnF] at h
    cases h
    exact stepOK_refl V c
  | connected j => exact Hrec c j r c' k h

theorem evalInputF_stepOK {ev : Circuit → Nat → Option (Option Signal × Circuit × Nat)}
    {V : List Nat}
    (Hrec : ∀ c₀ j r c' k, ev c₀ j = some (r, c', k) → stepOK V c₀ c')
    {c : Circuit} {a : Input} {r : Option Signal} {c' : Circuit} {k : Nat}
    (h : evalInputF ev c a = some (r, c', k)) : stepOK V c c' := by
  cases a with
  | signal s =>
    simp only [evalInputF] at h
    cases h
    exact stepOK_refl V c
  | connection co => exact evalConnF_stepOK Hrec h

theorem evalGateF_stepOK {ev : Circuit → Nat → Option (Option Signal × Circuit × Nat)}
    {V : List Nat}
    (Hrec : ∀ c₀ j r c' k, ev c₀ j = some (r, c', k) → stepOK V c₀ c')
    {c : Circuit} {g : Gate} {r : Option Signal} {c' : Circuit} {k : Nat}
    (h : evalGateF ev c g = some (r, c', k)) : stepOK V c c' := by
  cases g with
  | single a => exact evalInputF_stepOK Hrec h
  | and a b =>
    simp only [evalGateF] at h
    split at h
    · simp at h
    · rename_i c₁ k₁ heq
      cases h
      exact evalInputF_stepOK Hrec heq
    · rename_i x c₁ k₁ heq
      split at h
      · simp at h
      · rename_i c₂ k₂ heq₂
        cases h
        exact stepOK_trans (evalInputF_stepOK Hrec heq) (evalInputF_stepOK Hrec heq₂)
      · rename_i y c₂ k₂ heq₂
        cases h
        exact stepOK_trans (evalInputF_stepOK Hrec heq) (evalInputF_stepOK Hrec heq₂)
  | or a b =>
    simp only [evalGateF] at h
    split at h
    · simp at h
    · rename_i c₁ k₁ heq
      cases h
      exact evalInputF_stepOK Hrec heq
    · rename_i x c₁ k₁ heq
      split at h
      · simp at h
      · rename_i c₂ k₂ heq₂
        cases h
        exact stepOK_trans (evalInputF_stepOK Hrec heq) (evalInputF_stepOK Hrec heq₂)
      · rename_i y c₂ k₂ heq₂
        cases h
        exact stepOK_trans (evalInputF_stepOK Hrec heq) (evalInputF_stepOK Hrec heq₂)
  | rshift a k₀ =>
    simp only [evalGateF] at h
    split at h
    · simp at h
    · rename_i c₁ k₁ heq
      cases h
      exact evalInputF_stepOK Hrec heq
    · rename_i s c₁ k₁ heq
      split at h
      · cases h
        exact evalInputF_stepOK Hrec heq
      · simp at h
  | lshift a k₀ =>
    simp only [evalGateF] at h
    split at h
    · simp at h
    · rename_i c₁ k₁ heq
      cases h
      exact evalInputF_stepOK Hrec heq
    · rename_i s c₁ k₁ heq
      split at h
      · cases h
        exact evalInputF_stepOK Hrec heq
      · simp at h
  | not a =>
    simp only [evalGateF] at h
    split at h
    · simp at h
    · rename_i c₁ k₁ heq
      cases h
      exact evalInputF_stepOK Hrec heq
    · rename_i s c₁ k₁ heq
      cases h
      exact evalInputF_stepOK Hrec heq

/-- Evaluating a wire only ever fills cache slots: names, gates and the
borrowed wires are untouched, and `vis` members are not read or written. -/
theorem evalWire_stepOK : ∀ (fuel : Nat) (vis : List Nat) (c : Circuit) (i : Nat)
    (r : Option Signal) (c' : Circuit) (k : Nat),
    evalWire fuel vis c i = some (r, c', k) → stepOK vis c c' := by
  intro fuel
  induction fuel with
  | zero => intro vis c i r c' k h; simp [evalWire] at h
  | succ fuel ih =>
    intro vis c i r c' k h
    simp only [evalWire] at h
    split at h
    · simp at h
    · rename_i hvis
      split at h
      · simp at h
      · rename_i w hw
        split at h
        · rename_i v hv
          cases h
          exact stepOK_refl vis c
        · rename_i hnone
          split at h
          · simp at h
          · rename_i res c₂ k₂ hgate
            simp only [Option.some.injEq, Prod.mk.injEq] at h
            obtain ⟨hr, hc, hk⟩ := h
            subst hc
            have Hrec : ∀ c₀ j r₀ c₀' k₀, evalWire fuel (i :: vis) c₀ j = some (r₀, c₀', k₀) →
                stepOK (i :: vis) c₀ c₀' := fun c₀ j r₀ c₀' k₀ hh => ih (i :: vis) c₀ j r₀ c₀' k₀ hh
            have hstep : stepOK (i :: vis) c c₂ := evalGateF_stepOK Hrec hgate
            have hwi : c₂.get? i = some w := by
              rw [hstep.2 i (List.mem_cons_self i vis), hw]
            refine ⟨⟨?_, ?_⟩, ?_⟩
            · rw [setSignal, length_updateAt]
              exact hstep.1.1
            · intro j wj hj
              by_cases hij : j = i
              · subst hij
                rw [hw] at hj
                injection hj with hj
                refine ⟨{ w with signal := res }, ?_, by rw [hj], by rw [hj], ?_⟩
                · exact get?_updateAt_self c₂ j _ w hwi
                · rw [← hj]
                  cases res with
                  | none => exact Or.inl (by simp [hnone])
                  | some v => exact Or.inr ⟨hnone, v, rfl⟩
              · obtain ⟨wj', hwj', hm⟩ := hstep.1.2 j wj hj
                exact ⟨wj', by rw [setSignal, get?_updateAt_ne _ _ _ _ hij, hwj'], hm⟩
            · intro j hj
              have hij : j ≠ i := fun hc => hvis (hc ▸ hj)
              rw [setSignal, get?_updateAt_ne _ _ _ _ hij]
              exact hstep.2 j (List.mem_cons_of_mem i hj)

/-- After a run of `Wire::get_signal`, the wire's cache slot holds exactly
the returned result (so a success is cached, and a "no signal" leaves the
slot empty). -/
theorem evalWire_result_cached {fuel : Nat} {vis : List Nat} {c : Circuit} {i : Nat}
    {r : Option Signal} {c' : Circuit} {k : Nat}
    (h : evalWire fuel vis c i = some (r, c', k)) :
    ∃ w', c'.get? i = some w' ∧ w'.signal = r := by
  cases fuel with
  | zero => simp [evalWire] at h
  | succ fuel =>
    simp only [evalWire] at h
    split at h
    · simp at h
    · rename_i hvis
      split at h
      · simp at h
      · rename_i w hw
        split at h
        · rename_i v hv
          cases h
          exact ⟨w, hw, hv⟩
        · rename_i hnone
          split at h
          · simp at h
          · rename_i res c₂ k₂ hgate
            simp only [Option.some.injEq, Prod.mk.injEq] at h
            obtain ⟨hr, hc, hk⟩ := h
            subst hc
            have Hrec : ∀ c₀ j r₀ c₀' k₀, evalWire fuel (i :: vis) c₀ j = some (r₀, c₀', k₀) →
                stepOK (i :: vis) c₀ c₀' :=
              fun c₀ j r₀ c₀' k₀ hh => evalWire_stepOK fuel (i :: vis) c₀ j r₀ c₀' k₀ hh
            have hstep : stepOK (i :: vis) c c₂ := evalGateF_stepOK Hrec hgate
            have hwi : c₂.get? i = some w := by
              rw [hstep.2 i (List.mem_cons_self i vis), hw]
            exact ⟨{ w with signal := res }, get?_updateAt_self c₂ i _ w hwi, hr⟩

/-- A wire whose cache slot is filled is returned at once, with no state
change and no gate computation. -/
theorem evalWire_cache_hit {fuel : Nat} {vis : List Nat} {c : Circuit} {i : Nat}
    {w : Wire} {v : Signal} (hw : c.get? i = some w) (hv : w.signal = some v)
    (hvis : i ∉ vis) : evalWire (fuel + 1) vis c i = some (some v, c, 0) := by
  simp only [evalWire, hw, hv]
  rw [if_neg hvis]

/-! ### Name based lookup facts -/

theorem cacheMono_names {c c' : Circuit} (h : cacheMono c c') :
    c'.map Wire.name = c.map Wire.name := by
  apply List.ext
  intro n
  rw [List.get?_map, List.get?_map]
  cases hc : c.get? n with
  | some w =>
    obtain ⟨w', hw', hm⟩ := h.2 n w hc
    rw [hw', Option.map_some', Option.map_some', hm.1]
  | none =>
    have hc' : c'.get? n = none := by
      rw [List.get?_eq_none]
      rw [h.1]
      exact List.get?_eq_none.1 hc
    rw [hc']

theorem findWireIdx_congr (vis : List Nat) (c c' : Circuit) (m : Name)
    (h : c.map Wire.name = c'.map Wire.name) :
    findWireIdx vis c m = findWireIdx vis c' m := by
  rw [findWireIdx, findWireIdx, h]

theorem resetAll_names (c : Circuit) : (resetAll c).map Wire.name = c.map Wire.name := by
  simp [resetAll, List.map_map]

/-! ### Concrete circuits used by the examples below -/

/-- `123 -> x`, `x AND x -> d`. -/
def exampleDefsA : Defs :=
  [("x", .single (.signal 123)),
   ("d", .and (.connection (.disconnected "x")) (.connection (.disconnected "x")))]

/-- `exampleDefsA` after assembly. -/
def exampleCircuitA : Circuit :=
  [⟨"x", .single (.signal 123), none⟩,
   ⟨"d", .and (.connection (.connected 0)) (.connection (.connected 0)), none⟩]

/-- `exampleCircuitA` after evaluating `d`: both caches are filled. -/
def exampleCircuitA2 : Circuit :=
  [⟨"x", .single (.signal 123), some 123⟩,
   ⟨"d", .and (.connection (.connected 0)) (.connection (.connected 0)), some 123⟩]

/-- A single wire whose cache (7) deliberately disagrees with its gate (3):
if the gate ran, the result could not be 7. -/
def cacheDemo : Circuit := [⟨"x", .single (.signal 3), some 7⟩]

/-- `9 -> x`, `x -> y` after assembly. -/
def chainCircuit : Circuit :=
  [⟨"x", .single (.signal 9), none⟩,
   ⟨"y", .single (.connection (.connected 0)), none⟩]

/-- `chainCircuit` after a successful `get("y")`. -/
def chainCircuit2 : Circuit :=
  [⟨"x", .single (.signal 9), some 9⟩,
   ⟨"y", .single (.connection (.connected 0)), some 9⟩]

/-- `a -> c`, `b -> a` (name `b` is dangling) after assembly. -/
def exampleCircuitD : Circuit :=
  [⟨"c", .single (.connection (.connected 1)), none⟩,
   ⟨"a", .single (.connection (.disconnected "b")), none⟩]

/-- `exampleCircuitD` after `set("a", 5)`. -/
def exampleCircuitD2 : Circuit :=
  [⟨"c", .single (.connection (.connected 1)), none⟩,
   ⟨"a", .single (.signal 5), none⟩]

/-- `exampleCircuitD2` after a successful `get("c")`. -/
def exampleCircuitD3 : Circuit :=
  [⟨"c", .single (.connection (.connected 1)), some 5⟩,
   ⟨"a", .single (.signal 5), some 5⟩]

/-! ### C1 -/

/-- C1 counterexample: in the assembled circuit `123 -> x`, `x AND x -> d`
(both caches empty), evaluating `d` through `Circuit::get` also fills the
cache slot of the other wire `x` (from `none` to `some 123`), so evaluating
a wire does mutate nodes other than the evaluated wire. -/
theorem eval_fills_other_cache_slots :
    assembleDefs exampleDefsA = some exampleCircuitA ∧
    exampleCircuitA.map Wire.signal = [none, none] ∧
    (circuitGet exampleCircuitA "d").map (fun t => t.2.1.map Wire.signal) =
      some [some 123, some 123] :=
  ⟨rfl, rfl, rfl⟩

/-- C1 (amended): evaluating a wire through `Circuit::get` mutates no name
and no gate, and changes cache slots only by filling empty ones — the
evaluated wire's own slot and those of the wires its gate transitively
evaluates. -/
theorem get_mutates_only_cache_slots (c : Circuit) (m : Name) (r : Option Signal)
    (c' : Circuit) (k : Nat) (h : circuitGet c m = some (r, c', k)) :
    c'.length = c.length ∧
    ∀ j w, c.get? j = some w → ∃ w', c'.get? j = some w' ∧
      w'.name = w.name ∧ w'.gate = w.gate ∧
      (w'.signal = w.signal ∨ (w.signal = none ∧ ∃ v, w'.signal = some v)) := by
  rw [circuitGet] at h
  cases hf : circuitFind c m with
  | none =>
    rw [hf] at h
    cases h
    exact ⟨rfl, fun j w hj => ⟨w, hj, rfl, rfl, Or.inl rfl⟩⟩
  | some i =>
    rw [hf] at h
    have hstep := evalWire_stepOK _ _ _ _ _ _ _ h
    exact ⟨hstep.1.1, hstep.1.2⟩

/-- Witness for C1 (amended) at the concrete circuit `exampleCircuitA`. -/
theorem get_mutates_only_cache_slots_witness :
    exampleCircuitA2.length = exampleCircuitA.length ∧
    ∀ j w, exampleCircuitA.get? j = some w → ∃ w', exampleCircuitA2.get? j = some w' ∧
      w'.name = w.name ∧ w'.gate = w.gate ∧
      (w'.signal = w.signal ∨ (w.signal = none ∧ ∃ v, w'.signal = some v)) :=
  get_mutates_only_cache_slots exampleCircuitA "d" (some 123) exampleCircuitA2 2 rfl

/-! ### C2 -/

/-- C2 counterexample: a `ShiftLeft` whose operand is the 16 bit value 1
and whose shift amount is 16 does not produce `(1 <<< 16) % 65536 = 0`; it
panics (checked shift overflow), modelled by `none`. -/
theorem lshift_by_16_panics :
    evalGateF (evalWire 1 []) [] (Gate.lshift (.signal 1) 16) = none := rfl

/-- C2 (amended): evaluating `ShiftLeft(a, k)` on an operand that yields
the signal `s` produces `(s <<< k) % 65536` when `k < 16`, and panics
(checked shift overflow) when `k ≥ 16`. -/
theorem lshift_gate_semantics (ev : Circuit → Nat → Option (Option Signal × Circuit × Nat))
    (c c₁ : Circuit) (a : Input) (s : Signal) (k₁ kk : Nat)
    (h : evalInputF ev c a = some (some s, c₁, k₁)) :
    (kk < 16 → evalGateF ev c (.lshift a kk) = some (some ((s <<< kk) % 65536), c₁, k₁)) ∧
    (16 ≤ kk → evalGateF ev c (.lshift a kk) = none) := by
  constructor
  · intro hk
    simp [evalGateF, h, hk]
  · intro hk
    simp [evalGateF, h, Nat.not_lt.2 hk]

/-- Witness for C2 (amended): `3 LSHIFT 2` evaluates to 12. -/
theorem lshift_gate_semantics_witness :
    evalGateF (evalWire 1 []) [] (Gate.lshift (.signal 3) 2) = some (some 12, [], 0) :=
  (lshift_gate_semantics (evalWire 1 []) [] [] (.signal 3) 3 0 2 rfl).1 (by decide)

/-! ### C4 -/

/-- The test circuit of the spec (and of the repository's unit test). -/
def specTestDefs : Defs :=
  [("x", .single (.signal 123)),
   ("y", .single (.signal 456)),
   ("d", .and (.connection (.disconnected "x")) (.connection (.disconnected "y"))),
   ("e", .or (.connection (.disconnected "x")) (.connection (.disconnected "y"))),
   ("f", .lshift (.connection (.disconnected "x")) 2),
   ("g", .rshift (.connection (.disconnected "y")) 2),
   ("h", .not (.connection (.disconnected "x"))),
   ("i", .not (.connection (.disconnected "y")))]

/-- C4: with `x = 123` and `y = 456`, the six operator wires evaluate to
the values listed in the spec. -/
theorem operator_table_values :
    runGet specTestDefs "d" = some (some 72) ∧
    runGet specTestDefs "e" = some (some 507) ∧
    runGet specTestDefs "f" = some (some 492) ∧
    runGet specTestDefs "g" = some (some 114) ∧
    runGet specTestDefs "h" = some (some 65412) ∧
    runGet specTestDefs "i" = some (some 65079) :=
  ⟨rfl, rfl, rfl, rfl, rfl, rfl⟩

/-! ### C5 -/

/-- C5: a wire whose cache slot holds `v` returns `v` at once — no gate
work (counter 0) and no state change — and once `get(name)` has succeeded,
a second `get(name)` returns the same value with zero gate computations. -/
theorem cached_wire_returns_immediately :
    (∀ (fuel : Nat) (c : Circuit) (i : Nat) (w : Wire) (v : Signal),
        c.get? i = some w → w.signal = some v →
        evalWire (fuel + 1) [] c i = some (some v, c, 0)) ∧
    (∀ (c : Circuit) (nm : Name) (v : Signal) (c' : Circuit) (k : Nat),
        circuitGet c nm = some (some v, c', k) →
        circuitGet c' nm = some (some v, c', 0)) := by
  constructor
  · intro fuel c i w v hw hv
    exact evalWire_cache_hit hw hv (by simp)
  · intro c nm v c' k h
    rw [circuitGet] at h
    cases hf : circuitFind c nm with
    | none =>
      rw [hf] at h
      simp at h
    | some i =>
      rw [hf] at h
      have hstep := evalWire_stepOK _ _ _ _ _ _ _ h
      obtain ⟨w', hw', hs⟩ := evalWire_result_cached h
      have hf' : circuitFind c' nm = some i := by
        rw [circuitFind, findWireIdx_congr [] c' c nm (cacheMono_names hstep.1)]
        exact hf
      rw [circuitGet, hf', hstep.1.1]
      exact evalWire_cache_hit hw' hs (by simp)

/-- Witness for C5: the stale cache value 7 is returned although the gate
would produce 3; and a second `get("y")` after a first one costs no gate
computation. -/
theorem cached_wire_returns_immediately_witness :
    evalWire 1 [] cacheDemo 0 = some (some 7, cacheDemo, 0) ∧
    circuitGet chainCircuit2 "y" = some (some 9, chainCircuit2, 0) :=
  ⟨cached_wire_returns_immediately.1 0 cacheDemo 0 ⟨"x", .single (.signal 3), some 7⟩ 7 rfl rfl,
   cached_wire_returns_immediately.2 chainCircuit "y" 9 chainCircuit2 2 rfl⟩

/-! ### C6 -/

/-- C6: a `get_signal` run that yields "no signal" leaves the wire's cache
slot empty; and concretely, after `a -> c` with `b -> a` dangling yields no
signal for `c` (with untouched state), overriding the upstream wire `a`
with `set("a", 5)` makes the next `get("c")` succeed with 5. -/
theorem no_signal_not_cached :
    (∀ (fuel : Nat) (vis : List Nat) (c : Circuit) (i : Nat) (c' : Circuit) (k : Nat),
        evalWire fuel vis c i = some (none, c', k) →
        ∃ w', c'.get? i = some w' ∧ w'.signal = none) ∧
    (circuitGet exampleCircuitD "c" = some (none, exampleCircuitD, 2) ∧
     circuitSet exampleCircuitD "a" 5 = Except.ok exampleCircuitD2 ∧
     circuitGet exampleCircuitD2 "c" = some (some 5, exampleCircuitD3, 2)) :=
  ⟨fun _ _ _ _ _ _ h => evalWire_result_cached h, rfl, rfl, rfl⟩

/-- Witness for C6: the failed evaluation of wire 0 of `exampleCircuitD`
left its cache slot empty. -/
theorem no_signal_not_cached_witness :
    ∃ w', exampleCircuitD.get? 0 = some w' ∧ w'.signal = none :=
  no_signal_not_cached.1 3 [] exampleCircuitD 0 exampleCircuitD 2 rfl

/-! ### C10 -/

/-- C10: `Circuit::set` with a name no wire has panics (the `unwrap`),
and since `reset` ran before the lookup, the state observable at the panic
has every cache slot cleared and every gate (and name) unchanged. -/
theorem set_missing_name_panics (c : Circuit) (m : Name) (v : Signal)
    (h : circuitFind c m = none) :
    circuitSet c m v = Except.error (resetAll c) ∧
    (resetAll c).length = c.length ∧
    ∀ j w, c.get? j = some w → (resetAll c).get? j = some { w with signal := none } := by
  have hf : circuitFind (resetAll c) m = none := by
    rw [circuitFind, findWireIdx_congr [] (resetAll c) c m (resetAll_names c)]
    exact h
  refine ⟨?_, ?_, ?_⟩
  · rw [circuitSet, hf]
  · simp [resetAll]
  · intro j w hj
    rw [resetAll, List.get?_map, hj, Option.map_some']

/-- Witness for C10 at a circuit with filled caches and a missing name. -/
theorem set_missing_name_panics_witness :
    circuitSet exampleCircuitA2 "zz" 0 = Except.error (resetAll exampleCircuitA2) ∧
    (resetAll exampleCircuitA2).length = exampleCircuitA2.length ∧
    ∀ j w, exampleCircuitA2.get? j = some w →
      (resetAll exampleCircuitA2).get? j = some { w with signal := none } :=
  set_missing_name_panics exampleCircuitA2 "zz" 0 rfl

/-! ### Characterizing the linear search of `find_wire` -/

theorem findIdxFrom_none_of_not_mem (vis : List Nat) (m : Name) :
    ∀ (k : Nat) (ns : List Name), m ∉ ns → findIdxFrom vis m k ns = none := by
  intro k ns
  induction ns generalizing k with
  | nil => intro _; rfl
  | cons n ns ih =>
    intro hm
    rw [findIdxFrom, if_neg, ih (k + 1) (fun hx => hm (List.mem_cons_of_mem n hx))]
    intro hcond
    exact hm (hcond.2 ▸ List.mem_cons_self n ns)

theorem findIdxFrom_some_spec (vis : List Nat) (m : Name) :
    ∀ (k : Nat) (ns : List Name) (j : Nat), findIdxFrom vis m k ns = some j →
      k ≤ j ∧ j - k < ns.length ∧ j ∉ vis ∧ ns.get? (j - k) = some m := by
  intro k ns
  induction ns generalizing k with
  | nil => intro j h; simp [findIdxFrom] at h
  | cons n ns ih =>
    intro j h
    rw [findIdxFrom] at h
    by_cases hcond : k ∉ vis ∧ n = m
    · rw [if_pos hcond] at h
      injection h with h
      subst h
      refine ⟨Nat.le_refl _, by simp, hcond.1, ?_⟩
      simp [hcond.2]
    · rw [if_neg hcond] at h
      obtain ⟨h₁, h₂, h₃, h₄⟩ := ih (k + 1) j h
      refine ⟨by omega, by simp; omega, h₃, ?_⟩
      have hjk : j - k = (j - (k + 1)) + 1 := by omega
      rw [hjk]
      simpa using h₄

theorem findIdxFrom_nodup_spec (vis : List Nat) (m : Name) :
    ∀ (k p : Nat) (ns : List Name), ns.Nodup → ns.get? p = some m → (k + p) ∉ vis →
      findIdxFrom vis m k ns = some (k + p) := by
  intro k p ns
  induction ns generalizing k p with
  | nil => intro _ hp; simp at hp
  | cons n ns ih =>
    intro hnd hp hvis
    cases p with
    | zero =>
      simp only [List.get?] at hp
      injection hp with hp
      rw [findIdxFrom, if_pos ⟨by simpa using hvis, hp⟩, Nat.add_zero]
    | succ p =>
      simp only [List.get?] at hp
      have hmem : m ∈ ns := by
        have := List.get?_mem hp
        exact this
      have hne : ¬(k ∉ vis ∧ n = m) := fun hcond => (List.nodup_cons.1 hnd).1 (hcond.2 ▸ hmem)
      rw [findIdxFrom, if_neg hne]
      have : k + (p + 1) = (k + 1) + p := by omega
      rw [this] at hvis ⊢
      exact ih (k + 1) p (List.nodup_cons.1 hnd).2 hp hvis

theorem findWireIdx_some_spec {vis : List Nat} {c : Circuit} {m : Name} {j : Nat}
    (h : findWireIdx vis c m = some j) :
    j < c.length ∧ j ∉ vis ∧ ∃ w, c.get? j = some w ∧ w.name = m := by
  obtain ⟨h₁, h₂, h₃, h₄⟩ := findIdxFrom_some_spec vis m 0 (c.map Wire.name) j h
  rw [Nat.sub_zero] at h₂ h₄
  rw [List.length_map] at h₂
  rw [List.get?_map] at h₄
  refine ⟨h₂, h₃, ?_⟩
  cases hw : c.get? j with
  | none => rw [hw] at h₄; simp at h₄
  | some w =>
    rw [hw] at h₄
    exact ⟨w, rfl, by simpa using h₄⟩

/-! ### `connect` preserves names, cache slots and length -/

/-- The resolver can change gates but nothing else. -/
def sameShape (c c' : Circuit) : Prop :=
  c'.length = c.length ∧ ∀ j w, c.get? j = some w → ∃ w', c'.get? j = some w' ∧
    w'.name = w.name ∧ w'.signal = w.signal

theorem sameShape_refl (c : Circuit) : sameShape c c :=
  ⟨rfl, fun _ w h => ⟨w, h, rfl, rfl⟩⟩

theorem sameShape_trans {c₁ c₂ c₃ : Circuit} (h₁ : sameShape c₁ c₂) (h₂ : sameShape c₂ c₃) :
    sameShape c₁ c₃ := by
  refine ⟨h₂.1.trans h₁.1, fun j w h => ?_⟩
  obtain ⟨w', hw', hn, hs⟩ := h₁.2 j w h
  obtain ⟨w'', hw'', hn', hs'⟩ := h₂.2 j w' hw'
  exact ⟨w'', hw'', hn'.trans hn, hs'.trans hs⟩

theorem resolveConnF_shape {rec : Circuit → Nat → Option Circuit} {vis : List Nat}
    (Hrec : ∀ c₀ j c₁, rec c₀ j = some c₁ → sameShape c₀ c₁)
    {c : Circuit} {co : Connection} {co' : Connection} {c' : Circuit}
    (h : resolveConnF rec vis c co = some (co', c')) : sameShape c c' := by
  cases co with
  | connected j =>
    simp only [resolveConnF] at h
    cases h
    exact sameShape_refl c
  | disconnected m =>
    simp only [resolveConnF] at h
    split at h
    · cases h
      exact sameShape_refl c
    · rename_i j hj
      split at h
      · simp at h
      · rename_i c₁ hc₁
        cases h
        exact Hrec c j _ hc₁

theorem connectGateF_shape {rec : Circuit → Nat → Option Circuit} {vis : List Nat}
    (Hrec : ∀ c₀ j c₁, rec c₀ j = some c₁ → sameShape c₀ c₁)
    {c : Circuit} {g g' : Gate} {c' : Circuit}
    (h : connectGateF rec vis c g = some (g', c')) : sameShape c c' := by
  cases g with
  | and a b =>
    cases a with
    | signal s =>
      cases b with
      | signal t => simp only [connectGateF] at h; cases h; exact sameShape_refl c
      | connection bc =>
        simp only [connectGateF] at h
        split at h
        · simp at h
        · rename_i a' c₁ ha
          cases h
          exact resolveConnF_shape Hrec ha
    | connection ac =>
      cases b with
      | signal t =>
        simp only [connectGateF] at h
        split at h
        · simp at h
        · rename_i a' c₁ ha
          cases h
          exact resolveConnF_shape Hrec ha
      | connection bc =>
        simp only [connectGateF] at h
        split at h
        · simp at h
        · rename_i a' c₁ ha
          split at h
          · simp at h
          · rename_i b' c₂ hb
            cases h
            exact sameShape_trans (resolveConnF_shape Hrec ha) (resolveConnF_shape Hrec hb)
  | or a b =>
    cases a with
    | signal s =>
      cases b with
      | signal t => simp only [connectGateF] at h; cases h; exact sameShape_refl c
      | connection bc =>
        simp only [connectGateF] at h
        split at h
        · simp at h
        · rename_i a' c₁ ha
          cases h
          exact resolveConnF_shape Hrec ha
    | connection ac =>
      cases b with
      | signal t =>
        simp only [connectGateF] at h
        split at h
        · simp at h
        · rename_i a' c₁ ha
          cases h
          exact resolveConnF_shape Hrec ha
      | connection bc =>
        simp only [connectGateF] at h
        split at h
        · simp at h
        · rename_i a' c₁ ha
          split at h
          · simp at h
          · rename_i b' c₂ hb
            cases h
            exact sameShape_trans (resolveConnF_shape Hrec ha) (resolveConnF_shape Hrec hb)
  | rshift a k =>
    cases a with
    | signal s => simp only [connectGateF] at h; cases h; exact sameShape_refl c
    | connection ac =>
      simp only [connectGateF] at h
      split at h
      · simp at h
      · rename_i a' c₁ ha
        cases h
        exact resolveConnF_shape Hrec ha
  | lshift a k =>
    cases a with
    | signal s => simp only [connectGateF] at h; cases h; exact sameShape_refl c
    | connection ac =>
      simp only [connectGateF] at h
      split at h
      · simp at h
      · rename_i a' c₁ ha
        cases h
        exact resolveConnF_shape Hrec ha
  | not a =>
    cases a with
    | signal s => simp only [connectGateF] at h; cases h; exact sameShape_refl c
    | connection ac =>
      simp only [connectGateF] at h
      split at h
      · simp at h
      · rename_i a' c₁ ha
        cases h
        exact resolveConnF_shape Hrec ha
  | single a =>
    cases a with
    | signal s => simp only [connectGateF] at h; cases h; exact sameShape_refl c
    | connection ac =>
      simp only [connectGateF] at h
      split at h
      · simp at h
      · rename_i a' c₁ ha
        cases h
        exact resolveConnF_shape Hrec ha

theorem connectWire_shape : ∀ (fuel : Nat) (vis : List Nat) (c : Circuit) (i : Nat) (c' : Circuit),
    connectWire fuel vis c i = some c' → sameShape c c' := by
  intro fuel
  induction fuel with
  | zero => intro vis c i c' h; simp [connectWire] at h
  | succ fuel ih =>
    intro vis c i c' h
    simp only [connectWire] at h
    split at h
    · cases h
      exact sameShape_refl c
    · rename_i w hw
      split at h
      · cases h
        exact sameShape_refl c
      · split at h
        · simp at h
        · rename_i g' c₂ hg
          cases h
          have hshape : sameShape c c₂ :=
            connectGateF_shape (fun c₀ j c₁ hh => ih (i :: vis) c₀ j c₁ hh) hg
          refine ⟨?_, fun j wj hj => ?_⟩
          · rw [setGate, length_updateAt]
            exact hshape.1
          · obtain ⟨w', hw', hn, hs⟩ := hshape.2 j wj hj
            by_cases hij : j = i
            · subst hij
              exact ⟨{ w' with gate := g' }, get?_updateAt_self c₂ j _ w' hw', hn, hs⟩
            · exact ⟨w', by rw [setGate, get?_updateAt_ne _ _ _ _ hij, hw'], hn, hs⟩

/-! ### Termination of the resolver, even on cyclic definitions -/

theorem nodup_bound_length {vis : List Nat} {n : Nat} (hnd : vis.Nodup)
    (hb : ∀ j ∈ vis, j < n) : vis.length ≤ n := by
  classical
  have h1 : vis.toFinset.card = vis.length := List.toFinset_card_of_nodup hnd
  have h2 : vis.toFinset ⊆ Finset.range n := by
    intro x hx
    rw [Finset.mem_range]
    exact hb x (List.mem_toFinset.1 hx)
  have h3 := Finset.card_le_card h2
  rw [Finset.card_range] at h3
  omega

theorem resolveConnF_total {rec : Circuit → Nat → Option Circuit} {vis : List Nat} {N : Nat}
    (Hrec : ∀ c₀ j, c₀.length = N → j ∉ vis → j < N → ∃ c₁, rec c₀ j = some c₁ ∧ c₁.length = N) :
    ∀ (c : Circuit) (co : Connection), c.length = N →
      ∃ co' c', resolveConnF rec vis c co = some (co', c') ∧ c'.length = N := by
  intro c co hc
  cases co with
  | connected j => exact ⟨.connected j, c, rfl, hc⟩
  | disconnected m =>
    cases hf : findWireIdx vis c m with
    | none => exact ⟨.disconnected m, c, by simp [resolveConnF, hf], hc⟩
    | some j =>
      obtain ⟨hj1, hj2, _⟩ := findWireIdx_some_spec hf
      obtain ⟨c₁, hc₁, hl⟩ := Hrec c j hc hj2 (hc ▸ hj1)
      exact ⟨.connected j, c₁, by simp [resolveConnF, hf, hc₁], hl⟩

theorem connectGateF_total {rec : Circuit → Nat → Option Circuit} {vis : List Nat} {N : Nat}
    (Hrec : ∀ c₀ j, c₀.length = N → j ∉ vis → j < N → ∃ c₁, rec c₀ j = some c₁ ∧ c₁.length = N) :
    ∀ (c : Circuit) (g : Gate), c.length = N →
      ∃ g' c', connectGateF rec vis c g = some (g', c') ∧ c'.length = N := by
  intro c g hc
  cases g with
  | and a b =>
    cases a with
    | signal s =>
      cases b with
      | signal t => exact ⟨_, c, rfl, hc⟩
      | connection bc =>
        obtain ⟨b', c₁, hb, hl⟩ := resolveConnF_total Hrec c bc hc
        exact ⟨.and (.signal s) (.connection b'), c₁, by simp [connectGateF, hb], hl⟩
    | connection ac =>
      cases b with
      | signal t =>
        obtain ⟨a', c₁, ha, hl⟩ := resolveConnF_total Hrec c ac hc
        exact ⟨.and (.connection a') (.signal t), c₁, by simp [connectGateF, ha], hl⟩
      | connection bc =>
        obtain ⟨a', c₁, ha, hl₁⟩ := resolveConnF_total Hrec c ac hc
        obtain ⟨b', c₂, hb, hl₂⟩ := resolveConnF_total Hrec c₁ bc hl₁
        exact ⟨.and (.connection a') (.connection b'), c₂, by simp [connectGateF, ha, hb], hl₂⟩
  | or a b =>
    cases a with
    | signal s =>
      cases b with
      | signal t => exact ⟨_, c, rfl, hc⟩
      | connection bc =>
        obtain ⟨b', c₁, hb, hl⟩ := resolveConnF_total Hrec c bc hc
        exact ⟨.or (.signal s) (.connection b'), c₁, by simp [connectGateF, hb], hl⟩
    | connection ac =>
      cases b with
      | signal t =>
        obtain ⟨a', c₁, ha, hl⟩ := resolveConnF_total Hrec c ac hc
        exact ⟨.or (.connection a') (.signal t), c₁, by simp [connectGateF, ha], hl⟩
      | connection bc =>
        obtain ⟨a', c₁, ha, hl₁⟩ := resolveConnF_total Hrec c ac hc
        obtain ⟨b', c₂, hb, hl₂⟩ := resolveConnF_total Hrec c₁ bc hl₁
        exact ⟨.or (.connection a') (.connection b'), c₂, by simp [connectGateF, ha, hb], hl₂⟩
  | rshift a k =>
    cases a with
    | signal s => exact ⟨_, c, rfl, hc⟩
    | connection ac =>
      obtain ⟨a', c₁, ha, hl⟩ := resolveConnF_total Hrec c ac hc
      exact ⟨.rshift (.connection a') k, c₁, by simp [connectGateF, ha], hl⟩
  | lshift a k =>
    cases a with
    | signal s => exact ⟨_, c, rfl, hc⟩
    | connection ac =>
      obtain ⟨a', c₁, ha, hl⟩ := resolveConnF_total Hrec c ac hc
      exact ⟨.lshift (.connection a') k, c₁, by simp [connectGateF, ha], hl⟩
  | not a =>
    cases a with
    | signal s => exact ⟨_, c, rfl, hc⟩
    | connection ac =>
      obtain ⟨a', c₁, ha, hl⟩ := resolveConnF_total Hrec c ac hc
      exact ⟨.not (.connection a'), c₁, by simp [connectGateF, ha], hl⟩
  | single a =>
    cases a with
    | signal s => exact ⟨_, c, rfl, hc⟩
    | connection ac =>
      obtain ⟨a', c₁, ha, hl⟩ := resolveConnF_total Hrec c ac hc
      exact ⟨.single (.connection a'), c₁, by simp [connectGateF, ha], hl⟩

theorem connectWire_total : ∀ (fuel : Nat) (vis : List Nat) (c : Circuit) (i : Nat),
    vis.Nodup → (∀ j ∈ vis, j < c.length) → i ∉ vis → i < c.length →
    c.length + 1 ≤ fuel + vis.length →
    ∃ c', connectWire fuel vis c i = some c' ∧ c'.length = c.length := by
  intro fuel
  induction fuel with
  | zero =>
    intro vis c i hnd hb hiv hi hfuel
    exfalso
    have := nodup_bound_length hnd hb
    omega
  | succ fuel ih =>
    intro vis c i hnd hb hiv hi hfuel
    cases hw : c.get? i with
    | none =>
      exfalso
      rw [List.get?_eq_none] at hw
      omega
    | some w =>
      by_cases hcon : w.gate.is_connected = true
      · refine ⟨c, ?_, rfl⟩
        simp only [connectWire, hw]
        rw [if_pos hcon]
      · have Hrec : ∀ c₀ j, c₀.length = c.length → j ∉ (i :: vis) → j < c.length →
            ∃ c₁, connectWire fuel (i :: vis) c₀ j = some c₁ ∧ c₁.length = c.length := by
          intro c₀ j hl hj hjn
          have hnd' : (i :: vis).Nodup := List.nodup_cons.2 ⟨hiv, hnd⟩
          have hb' : ∀ j' ∈ (i :: vis), j' < c₀.length := by
            intro j' hj'
            rw [hl]
            rcases List.mem_cons.1 hj' with h | h
            · exact h ▸ hi
            · exact hb j' h
          obtain ⟨c₁, h₁, h₂⟩ := ih (i :: vis) c₀ j hnd' hb' hj (by omega)
            (by rw [hl, List.length_cons]; omega)
          exact ⟨c₁, h₁, h₂.trans hl⟩
        obtain ⟨g', c₂, hg, hl⟩ := connectGateF_total Hrec c w.gate rfl
        refine ⟨setGate c₂ i g', ?_, ?_⟩
        · simp only [connectWire, hw]
          rw [if_neg hcon]
          simp only [hg]
        · rw [setGate, length_updateAt]
          exact hl

theorem connectAllAux_total : ∀ (k : Nat) (c : Circuit) (i : Nat),
    (connectAllAux k c i).isSome := by
  intro k
  induction k with
  | zero => intro c i; simp [connectAllAux]
  | succ k ih =>
    intro c i
    by_cases hi : i < c.length
    · obtain ⟨c', hc', _⟩ := connectWire_total (c.length + 1) [] c i (by simp) (by simp)
        (by simp) hi (by simp)
      simp only [connectAllAux, hc']
      exact ih c' (i + 1)
    · have hnone : connectWire (c.length + 1) [] c i = some c := by
        have hw : c.get? i = none := List.get?_eq_none.2 (by omega)
        simp only [connectWire, hw]
      simp only [connectAllAux, hnone]
      exact ih c (i + 1)

/-- `Circuit::assemble` terminates on every finite list of definitions. -/
theorem assembleDefs_total (l : Defs) : (assembleDefs l).isSome :=
  connectAllAux_total (mkCircuit l).length (mkCircuit l) 0

/-- Two definitions whose name references form a cycle. -/
def cyclicDefs : Defs :=
  [("a", .single (.connection (.disconnected "b"))),
   ("b", .single (.connection (.disconnected "a")))]

/-! ### C9 -/

/-- C9: the resolver terminates on every finite list of definitions — also
cyclic ones — because a re-entrant visit of a wire that is currently being
resolved is skipped by the search (`try_borrow` fails on it), and a wire
whose gate is already fully connected returns immediately, unchanged. -/
theorem resolver_terminates :
    (∀ l : Defs, (assembleDefs l).isSome) ∧
    (∀ (fuel : Nat) (vis : List Nat) (c : Circuit) (i : Nat) (w : Wire),
        c.get? i = some w → w.gate.is_connected = true →
        connectWire (fuel + 1) vis c i = some c) ∧
    (∀ (vis : List Nat) (c : Circuit) (m : Name) (j : Nat), j ∈ vis →
        findWireIdx vis c m ≠ some j) := by
  refine ⟨assembleDefs_total, ?_, ?_⟩
  · intro fuel vis c i w hw hcon
    simp only [connectWire, hw]
    rw [if_pos hcon]
  · intro vis c m j hj hf
    exact (findWireIdx_some_spec hf).2.1 hj

/-- Witness for C9: assembly of a cyclic pair of definitions terminates;
an already connected wire returns unchanged; the search never returns a
borrowed index. -/
theorem resolver_terminates_witness :
    (assembleDefs cyclicDefs).isSome ∧
    connectWire 1 [] exampleCircuitA 0 = some exampleCircuitA ∧
    findWireIdx [0] exampleCircuitA "x" ≠ some 0 :=
  ⟨resolver_terminates.1 cyclicDefs,
   resolver_terminates.2.1 0 [] exampleCircuitA 0 ⟨"x", .single (.signal 123), none⟩ rfl rfl,
   resolver_terminates.2.2 [0] exampleCircuitA "x" 0 (by simp)⟩

/-! ### Raw definitions, linking as a function, and the denotation -/

def namesOf (l : Defs) : List Name := l.map Prod.fst

/-- Index of the first definition named `m` (nothing borrowed). -/
def idxOfName (l : Defs) (m : Name) : Option Nat := findIdxFrom [] m 0 (namesOf l)

/-- First definition named `m` (what the searches resolve `m` to). -/
def lookupDef (l : Defs) (m : Name) : Option (Name × Gate) := l.find? fun d => d.1 == m

/-- What the resolver turns a raw reference into: bound to the index of the
named wire when one exists, dangling otherwise. -/
def linkConn (l : Defs) : Connection → Connection
  | .disconnected m =>
    match idxOfName l m with
    | some j => .connected j
    | none => .disconnected m
  | .connected j => .connected j

def linkInput (l : Defs) : Input → Input
  | .signal s => .signal s
  | .connection co => .connection (linkConn l co)

def linkGate (l : Defs) : Gate → Gate
  | .single a => .single (linkInput l a)
  | .and a b => .and (linkInput l a) (linkInput l b)
  | .or a b => .or (linkInput l a) (linkInput l b)
  | .rshift a k => .rshift (linkInput l a) k
  | .lshift a k => .lshift (linkInput l a) k
  | .not a => .not (linkInput l a)

/-- The fully resolved circuit that assembly produces from `l`. -/
def linkedCircuit (l : Defs) : Circuit := l.map fun d => ⟨d.1, linkGate l d.2, none⟩

/-- A connection as produced by parsing: a textual name. -/
def rawConn : Connection → Bool
  | .disconnected _ => true
  | .connected _ => false

def rawInput : Input → Bool
  | .signal _ => true
  | .connection co => rawConn co

def rawGate : Gate → Bool
  | .single a => rawInput a
  | .and a b => rawInput a && rawInput b
  | .or a b => rawInput a && rawInput b
  | .rshift a _ => rawInput a
  | .lshift a _ => rawInput a
  | .not a => rawInput a

/-- Raw definitions: every reference still holds a textual name. -/
def rawDefs (l : Defs) : Prop := ∀ d ∈ l, rawGate d.2 = true

def inputRefs : Input → List Name
  | .signal _ => []
  | .connection (.disconnected m) => [m]
  | .connection (.connected _) => []

def gateRefs : Gate → List Name
  | .single a => inputRefs a
  | .and a b => inputRefs a ++ inputRefs b
  | .or a b => inputRefs a ++ inputRefs b
  | .rshift a _ => inputRefs a
  | .lshift a _ => inputRefs a
  | .not a => inputRefs a

/-- Acyclicity witness: a rank function that strictly decreases along every
resolvable reference. -/
def rankOk (rank : Name → Nat) (l : Defs) : Prop :=
  ∀ d ∈ l, ∀ m ∈ gateRefs d.2, (lookupDef l m).isSome = true → rank m < rank d.1

/-- Name level denotation of an input, given a denotation of names. -/
def denoteInputF (dn : Name → Option (Option Signal)) : Input → Option (Option Signal)
  | .signal s => some (some s)
  | .connection (.disconnected m) => dn m
  | .connection (.connected _) => some none

/-- Name level denotation of a gate, given a denotation of names.
Mirrors `Gate::get_signal` (strictness, evaluation order and the checked
shift) with the circuit state abstracted away. -/
def denoteGateF (dn : Name → Option (Option Signal)) : Gate → Option (Option Signal)
  | .single a => denoteInputF dn a
  | .and a b =>
    match denoteInputF dn a with
    | none => none
    | some none => some none
    | some (some x) =>
      match denoteInputF dn b with
      | none => none
      | some none => some none
      | some (some y) => some (some (x &&& y))
  | .or a b =>
    match denoteInputF dn a with
    | none => none
    | some none => some none
    | some (some x) =>
      match denoteInputF dn b with
      | none => none
      | some none => some none
      | some (some y) => some (some (x ||| y))
  | .rshift a k =>
    match denoteInputF dn a with
    | none => none
    | some none => some none
    | some (some s) => if k < 16 then some (some (s >>> k)) else none
  | .lshift a k =>
    match denoteInputF dn a with
    | none => none
    | some none => some none
    | some (some s) => if k < 16 then some (some ((s <<< k) % 65536)) else none
  | .not a =>
    match denoteInputF dn a with
    | none => none
    | some none => some none
    | some (some s) => some (some (s ^^^ 65535))

/-- Name level denotation of a wire name: what `get` on a freshly
assembled, acyclic circuit returns for that name (two layers: the outer
`none` is a panic, `some none` is "no signal"). -/
def denoteName : Nat → Defs → Name → Option (Option Signal)
  | fuel, l, m =>
    match lookupDef l m with
    | none => some none
    | some d =>
      match fuel with
      | 0 => none
      | Nat.succ f => denoteGateF (denoteName f l) d.2

/-- The stable denotation of a name under an acyclicity rank. -/
def denoteAt (l : Defs) (rank : Name → Nat) (m : Name) : Option (Option Signal) :=
  denoteName (rank m + 1) l m

/-! ### Unique names: lookups agree with indices -/

theorem namesOf_get? {l : Defs} {j : Nat} {d : Name × Gate} (h : l.get? j = some d) :
    (namesOf l).get? j = some d.1 := by
  rw [namesOf, List.get?_map, h, Option.map_some']

theorem lookupDef_isSome_iff {l : Defs} {m : Name} :
    (lookupDef l m).isSome = true ↔ m ∈ namesOf l := by
  rw [lookupDef, List.find?_isSome]
  constructor
  · rintro ⟨d, hd, hp⟩
    rw [namesOf]
    exact List.mem_map.2 ⟨d, hd, by simpa using hp⟩
  · intro hm
    obtain ⟨d, hd, he⟩ := List.mem_map.1 (show m ∈ (namesOf l) from hm)
    exact ⟨d, hd, by simp [he]⟩

theorem lookupDef_props {l : Defs} {m : Name} {d : Name × Gate} (h : lookupDef l m = some d) :
    d ∈ l ∧ d.1 = m :=
  ⟨List.mem_of_find?_eq_some h, by simpa using List.find?_some h⟩

theorem lookupDef_get? : ∀ {l : Defs}, (namesOf l).Nodup →
    ∀ {j : Nat} {d : Name × Gate}, l.get? j = some d → lookupDef l d.1 = some d := by
  intro l
  induction l with
  | nil => intro _ j d h; simp at h
  | cons e l ih =>
    intro hnd j d h
    have hnd' := List.nodup_cons.1 (show (e.1 :: namesOf l).Nodup from hnd)
    cases j with
    | zero =>
      simp only [List.get?] at h
      injection h with h
      subst h
      simp [lookupDef, List.find?_cons]
    | succ j =>
      simp only [List.get?] at h
      have hmem : d.1 ∈ namesOf l := by
        rw [namesOf]
        exact List.mem_map.2 ⟨d, List.get?_mem h, rfl⟩
      have hne : (e.1 == d.1) = false := by
        have : e.1 ≠ d.1 := fun he => hnd'.1 (he ▸ hmem)
        simpa using this
      rw [lookupDef, List.find?_cons, hne]
      exact ih hnd'.2 h

theorem idxOfName_of_get? {l : Defs} (hnd : (namesOf l).Nodup) {p : Nat} {m : Name}
    (hp : (namesOf l).get? p = some m) : idxOfName l m = some p := by
  have h := findIdxFrom_nodup_spec [] m 0 p (namesOf l) hnd hp (by simp)
  simpa [idxOfName] using h

theorem idxOfName_none {l : Defs} {m : Name} (h : m ∉ namesOf l) : idxOfName l m = none :=
  findIdxFrom_none_of_not_mem [] m 0 (namesOf l) h

theorem exists_idx_of_mem_names {l : Defs} {m : Name} (h : m ∈ namesOf l) :
    ∃ j d, l.get? j = some d ∧ d.1 = m := by
  obtain ⟨p, hp⟩ := List.mem_iff_get?.1 h
  rw [namesOf, List.get?_map] at hp
  cases hq : l.get? p with
  | none => rw [hq] at hp; simp at hp
  | some d =>
    rw [hq] at hp
    exact ⟨p, d, hq, by simpa using hp⟩

/-! ### The linking invariant: every reference is raw or already bound -/

/-- Progress of one reference slot during linking, relative to its raw name:
still the textual name, or already what full linking produces. -/
def connLink (l : Defs) (m : Name) (cur : Connection) : Prop :=
  cur = .disconnected m ∨ cur = linkConn l (.disconnected m)

def inputLink (l : Defs) : Input → Input → Prop
  | .signal s, cur => cur = .signal s
  | .connection (.disconnected m), .connection cur => connLink l m cur
  | .connection (.disconnected _), _ => False
  | .connection (.connected _), _ => False

def gateLink (l : Defs) : Gate → Gate → Prop
  | .single a, .single a' => inputLink l a a'
  | .and a b, .and a' b' => inputLink l a a' ∧ inputLink l b b'
  | .or a b, .or a' b' => inputLink l a a' ∧ inputLink l b b'
  | .rshift a k, .rshift a' k' => inputLink l a a' ∧ k' = k
  | .lshift a k, .lshift a' k' => inputLink l a a' ∧ k' = k
  | .not a, .not a' => inputLink l a a'
  | _, _ => False

/-- The state invariant of the resolver: names and empty caches as built
from the definitions, every gate a partial link of its raw gate. -/
def linkInv (l : Defs) (c : Circuit) : Prop :=
  c.length = l.length ∧ ∀ i d, l.get? i = some d → ∃ w, c.get? i = some w ∧
    w.name = d.1 ∧ w.signal = none ∧ gateLink l d.2 w.gate

/-- Gates only progress from raw towards fully linked. -/
def gateProgress (l : Defs) (c c' : Circuit) : Prop :=
  ∀ j w w', c.get? j = some w → c'.get? j = some w' →
    w'.gate = w.gate ∨ ∃ dj, l.get? j = some dj ∧ w'.gate = linkGate l dj.2

theorem inputLink_refl {l : Defs} {a : Input} (h : rawInput a = true) : inputLink l a a := by
  cases a with
  | signal s => rfl
  | connection co =>
    cases co with
    | disconnected m => exact Or.inl rfl
    | connected j => simp [rawInput, rawConn] at h

theorem gateLink_refl {l : Defs} {g : Gate} (h : rawGate g = true) : gateLink l g g := by
  cases g with
  | single a => exact inputLink_refl (by simpa [rawGate] using h)
  | and a b =>
    rw [rawGate, Bool.and_eq_true] at h
    exact ⟨inputLink_refl h.1, inputLink_refl h.2⟩
  | or a b =>
    rw [rawGate, Bool.and_eq_true] at h
    exact ⟨inputLink_refl h.1, inputLink_refl h.2⟩
  | rshift a k => exact ⟨inputLink_refl (by simpa [rawGate] using h), rfl⟩
  | lshift a k => exact ⟨inputLink_refl (by simpa [rawGate] using h), rfl⟩
  | not a => exact inputLink_refl (by simpa [rawGate] using h)

theorem inputLink_link {l : Defs} {a : Input} (h : rawInput a = true) :
    inputLink l a (linkInput l a) := by
  cases a with
  | signal s => rfl
  | connection co =>
    cases co with
    | disconnected m => exact Or.inr rfl
    | connected j => simp [rawInput, rawConn] at h

theorem gateLink_link {l : Defs} {g : Gate} (h : rawGate g = true) :
    gateLink l g (linkGate l g) := by
  cases g with
  | single a => exact inputLink_link (by simpa [rawGate] using h)
  | and a b =>
    rw [rawGate, Bool.and_eq_true] at h
    exact ⟨inputLink_link h.1, inputLink_link h.2⟩
  | or a b =>
    rw [rawGate, Bool.and_eq_true] at h
    exact ⟨inputLink_link h.1, inputLink_link h.2⟩
  | rshift a k => exact ⟨inputLink_link (by simpa [rawGate] using h), rfl⟩
  | lshift a k => exact ⟨inputLink_link (by simpa [rawGate] using h), rfl⟩
  | not a => exact inputLink_link (by simpa [rawGate] using h)

theorem linkInv_mk {l : Defs} (hraw : rawDefs l) : linkInv l (mkCircuit l) := by
  refine ⟨by simp [mkCircuit], fun i d hd => ?_⟩
  refine ⟨⟨d.1, d.2, none⟩, ?_, rfl, rfl, gateLink_refl (hraw d (List.get?_mem hd))⟩
  rw [mkCircuit, List.get?_map, hd, Option.map_some']

theorem linkInv_names {l : Defs} {c : Circuit} (h : linkInv l c) :
    c.map Wire.name = namesOf l := by
  apply List.ext
  intro n
  rw [List.get?_map, namesOf, List.get?_map]
  cases hd : l.get? n with
  | some d =>
    obtain ⟨w, hw, hn, _, _⟩ := h.2 n d hd
    rw [hw, Option.map_some', Option.map_some', hn]
  | none =>
    have : c.get? n = none := by
      rw [List.get?_eq_none] at hd ⊢
      rw [h.1]
      exact hd
    rw [this]
    rfl

theorem inputLink_connected {l : Defs} {a a' : Input} (hraw : rawInput a = true)
    (hl : inputLink l a a') (hcon : a'.connectedInput = true) : a' = linkInput l a := by
  cases a with
  | signal s => exact hl
  | connection co =>
    cases co with
    | connected j => simp [rawInput, rawConn] at hraw
    | disconnected m =>
      cases a' with
      | signal s => exact absurd hl (by simp [inputLink])
      | connection cur =>
        rcases hl with h | h
        · subst h
          simp [Input.connectedInput] at hcon
        · rw [h]
          rfl

theorem gateLink_connected {l : Defs} {g g' : Gate} (hraw : rawGate g = true)
    (hl : gateLink l g g') (hcon : g'.is_connected = true) : g' = linkGate l g := by
  cases g with
  | single a =>
    cases g' with
    | single a' =>
      rw [linkGate]
      rw [inputLink_connected (by simpa [rawGate] using hraw) hl
        (by simpa [Gate.is_connected] using hcon)]
    | and a' b' => exact absurd hl (by simp [gateLink])
    | or a' b' => exact absurd hl (by simp [gateLink])
    | rshift a' k' => exact absurd hl (by simp [gateLink])
    | lshift a' k' => exact absurd hl (by simp [gateLink])
    | not a' => exact absurd hl (by simp [gateLink])
  | and a b =>
    cases g' with
    | and a' b' =>
      rw [rawGate, Bool.and_eq_true] at hraw
      rw [Gate.is_connected, Bool.and_eq_true] at hcon
      rw [linkGate, inputLink_connected hraw.1 hl.1 hcon.1, inputLink_connected hraw.2 hl.2 hcon.2]
    | single a' => exact absurd hl (by simp [gateLink])
    | or a' b' => exact absurd hl (by simp [gateLink])
    | rshift a' k' => exact absurd hl (by simp [gateLink])
    | lshift a' k' => exact absurd hl (by simp [gateLink])
    | not a' => exact absurd hl (by simp [gateLink])
  | or a b =>
    cases g' with
    | or a' b' =>
      rw [rawGate, Bool.and_eq_true] at hraw
      rw [Gate.is_connected, Bool.and_eq_true] at hcon
      rw [linkGate, inputLink_connected hraw.1 hl.1 hcon.1, inputLink_connected hraw.2 hl.2 hcon.2]
    | single a' => exact absurd hl (by simp [gateLink])
    | and a' b' => exact absurd hl (by simp [gateLink])
    | rshift a' k' => exact absurd hl (by simp [gateLink])
    | lshift a' k' => exact absurd hl (by simp [gateLink])
    | not a' => exact absurd hl (by simp [gateLink])
  | rshift a k =>
    cases g' with
    | rshift a' k' =>
      rw [linkGate, hl.2, inputLink_connected (by simpa [rawGate] using hraw) hl.1
        (by simpa [Gate.is_connected] using hcon)]
    | single a' => exact absurd hl (by simp [gateLink])
    | and a' b' => exact absurd hl (by simp [gateLink])
    | or a' b' => exact absurd hl (by simp [gateLink])
    | lshift a' k' => exact absurd hl (by simp [gateLink])
    | not a' => exact absurd hl (by simp [gateLink])
  | lshift a k =>
    cases g' with
    | lshift a' k' =>
      rw [linkGate, hl.2, inputLink_connected (by simpa [rawGate] using hraw) hl.1
        (by simpa [Gate.is_connected] using hcon)]
    | single a' => exact absurd hl (by simp [gateLink])
    | and a' b' => exact absurd hl (by simp [gateLink])
    | or a' b' => exact absurd hl (by simp [gateLink])
    | rshift a' k' => exact absurd hl (by simp [gateLink])
    | not a' => exact absurd hl (by simp [gateLink])
  | not a =>
    cases g' with
    | not a' =>
      rw [linkGate]
      rw [inputLink_connected (by simpa [rawGate] using hraw) hl
        (by simpa [Gate.is_connected] using hcon)]
    | single a' => exact absurd hl (by simp [gateLink])
    | and a' b' => exact absurd hl (by simp [gateLink])
    | or a' b' => exact absurd hl (by simp [gateLink])
    | rshift a' k' => exact absurd hl (by simp [gateLink])
    | lshift a' k' => exact absurd hl (by simp [gateLink])

theorem gateProgress_refl (l : Defs) (c : Circuit) : gateProgress l c c := by
  intro j w w' hw hw'
  rw [hw] at hw'
  injection hw' with hw'
  exact Or.inl (by rw [hw'])

theorem gateProgress_trans {l : Defs} {c c₂ c₃ : Circuit} (hl : c.length = c₂.length)
    (h₁ : gateProgress l c c₂) (h₂ : gateProgress l c₂ c₃) : gateProgress l c c₃ := by
  intro j w w' hw hw'
  cases h₂w : c₂.get? j with
  | none =>
    exfalso
    rw [List.get?_eq_none] at h₂w
    have hj : j < c.length := by
      rcases Nat.lt_or_ge j c.length with h | h
      · exact h
      · rw [List.get?_eq_none.2 h] at hw
        cases hw
    omega
  | some w₂ =>
    rcases h₂ j w₂ w' h₂w hw' with he | r
    · rcases h₁ j w w₂ hw h₂w with he' | ⟨dj, hdj, hlink⟩
      · exact Or.inl (he.trans he')
      · exact Or.inr ⟨dj, hdj, he.trans hlink⟩
    · exact Or.inr r

/-! ### The resolver computes `linkGate` on acyclic definitions -/

theorem get?_some_of_lt {α : Type} {c : List α} {j : Nat} (h : j < c.length) :
    ∃ w, c.get? j = some w := by
  cases hw : c.get? j with
  | none =>
    rw [List.get?_eq_none] at hw
    omega
  | some w => exact ⟨w, rfl⟩

theorem resolveConnF_links {l : Defs} {rank : Name → Nat} {R fuel : Nat} {vis : List Nat}
    (hnd : (namesOf l).Nodup)
    (hvis : ∀ j ∈ vis, ∀ dj, l.get? j = some dj → R ≤ rank dj.1)
    (Hrec : ∀ c₀ j dj, linkInv l c₀ → l.get? j = some dj → rank dj.1 < R →
      ∃ c₁, connectWire fuel vis c₀ j = some c₁ ∧ linkInv l c₁ ∧ gateProgress l c₀ c₁ ∧
        ∃ w', c₁.get? j = some w' ∧ w'.gate = linkGate l dj.2)
    (c : Circuit) (m : Name) (cur : Connection)
    (hinv : linkInv l c) (hcl : connLink l m cur)
    (hrk : (lookupDef l m).isSome = true → rank m < R) :
    ∃ c', resolveConnF (connectWire fuel vis) vis c cur =
        some (linkConn l (.disconnected m), c') ∧
      linkInv l c' ∧ gateProgress l c c' := by
  cases cur with
  | connected j =>
    have hlc : Connection.connected j = linkConn l (.disconnected m) := by
      rcases hcl with h | h
      · cases h
      · exact h
    exact ⟨c, by rw [← hlc]; rfl, hinv, gateProgress_refl l c⟩
  | disconnected m' =>
    have hm : m' = m := by
      rcases hcl with h | h
      · injection h
      · rw [linkConn] at h
        cases hidx : idxOfName l m with
        | some j => rw [hidx] at h; cases h
        | none =>
          rw [hidx] at h
          injection h
    subst hm
    cases hres : lookupDef l m' with
    | none =>
      have hnm : m' ∉ namesOf l := by
        intro hmem
        have := lookupDef_isSome_iff.2 hmem
        rw [hres] at this
        cases this
      have hfind : findWireIdx vis c m' = none := by
        rw [findWireIdx, linkInv_names hinv]
        exact findIdxFrom_none_of_not_mem vis m' 0 (namesOf l) hnm
      have hlc : linkConn l (.disconnected m') = .disconnected m' := by
        rw [linkConn, idxOfName_none hnm]
      refine ⟨c, ?_, hinv, gateProgress_refl l c⟩
      rw [hlc]
      simp [resolveConnF, hfind]
    | some dm =>
      have hrm : rank m' < R := hrk (by rw [hres]; rfl)
      have hmem : m' ∈ namesOf l := lookupDef_isSome_iff.1 (by rw [hres]; rfl)
      obtain ⟨p, d₀, hp, hp1⟩ := exists_idx_of_mem_names hmem
      have hpn : (namesOf l).get? p = some m' := by
        rw [namesOf_get? hp, hp1]
      have hpv : p ∉ vis := by
        intro hmemv
        have := hvis p hmemv d₀ hp
        rw [hp1] at this
        omega
      have hfind : findWireIdx vis c m' = some p := by
        rw [findWireIdx, linkInv_names hinv]
        have := findIdxFrom_nodup_spec vis m' 0 p (namesOf l) hnd hpn (by simpa using hpv)
        simpa using this
      obtain ⟨c₁, hcw, hinv₁, hprog₁, _⟩ :=
        Hrec c p d₀ hinv hp (by rw [hp1]; exact hrm)
      have hlc : linkConn l (.disconnected m') = .connected p := by
        rw [linkConn, idxOfName_of_get? hnd hpn]
      refine ⟨c₁, ?_, hinv₁, hprog₁⟩
      rw [hlc]
      simp [resolveConnF, hfind, hcw]

theorem connectGateF_links {l : Defs} {rank : Name → Nat} {R fuel : Nat} {vis : List Nat}
    (hnd : (namesOf l).Nodup)
    (hvis : ∀ j ∈ vis, ∀ dj, l.get? j = some dj → R ≤ rank dj.1)
    (Hrec : ∀ c₀ j dj, linkInv l c₀ → l.get? j = some dj → rank dj.1 < R →
      ∃ c₁, connectWire fuel vis c₀ j = some c₁ ∧ linkInv l c₁ ∧ gateProgress l c₀ c₁ ∧
        ∃ w', c₁.get? j = some w' ∧ w'.gate = linkGate l dj.2) :
    ∀ (c : Circuit) (g₀ g : Gate), linkInv l c → rawGate g₀ = true → gateLink l g₀ g →
      (∀ m ∈ gateRefs g₀, (lookupDef l m).isSome = true → rank m < R) →
      ∃ c', connectGateF (connectWire fuel vis) vis c g = some (linkGate l g₀, c') ∧
        linkInv l c' ∧ gateProgress l c c' := by
  intro c g₀ g hinv hraw hgl hrefs
  cases g₀ with
  | single a₀ =>
    cases g with
    | single a =>
      cases a₀ with
      | signal s =>
        have ha : a = .signal s := hgl
        subst ha
        exact ⟨c, by simp [connectGateF, linkGate, linkInput], hinv, gateProgress_refl l c⟩
      | connection co₀ =>
        cases co₀ with
        | connected j => simp [rawGate, rawInput, rawConn] at hraw
        | disconnected m =>
          cases a with
          | signal s => exact (hgl : False).elim
          | connection cur =>
            obtain ⟨c', hres, hinv', hprog⟩ := resolveConnF_links hnd hvis Hrec c m cur hinv hgl
              (hrefs m (by simp [gateRefs, inputRefs]))
            exact ⟨c', by simp [connectGateF, hres, linkGate, linkInput], hinv', hprog⟩
    | and a b => exact (hgl : False).elim
    | or a b => exact (hgl : False).elim
    | rshift a k => exact (hgl : False).elim
    | lshift a k => exact (hgl : False).elim
    | not a => exact (hgl : False).elim
  | and a₀ b₀ =>
    cases g with
    | and a b =>
      rw [rawGate, Bool.and_eq_true] at hraw
      cases a₀ with
      | signal s =>
        have ha : a = .signal s := hgl.1
        subst ha
        cases b₀ with
        | signal t =>
          have hb : b = .signal t := hgl.2
          subst hb
          exact ⟨c, by simp [connectGateF, linkGate, linkInput], hinv, gateProgress_refl l c⟩
        | connection co₀ =>
          cases co₀ with
          | connected j => simp [rawInput, rawConn] at hraw
          | disconnected m =>
            cases b with
            | signal t => exact (hgl.2 : False).elim
            | connection cur =>
              obtain ⟨c', hres, hinv', hprog⟩ := resolveConnF_links hnd hvis Hrec c m cur hinv
                hgl.2 (hrefs m (by simp [gateRefs, inputRefs]))
              exact ⟨c', by simp [connectGateF, hres, linkGate, linkInput], hinv', hprog⟩
      | connection co₀ =>
        cases co₀ with
        | connected j => simp [rawInput, rawConn] at hraw
        | disconnected ma =>
          cases a with
          | signal s => exact (hgl.1 : False).elim
          | connection cura =>
            cases b₀ with
            | signal t =>
              have hb : b = .signal t := hgl.2
              subst hb
              obtain ⟨c', hres, hinv', hprog⟩ := resolveConnF_links hnd hvis Hrec c ma cura hinv
                hgl.1 (hrefs ma (by simp [gateRefs, inputRefs]))
              exact ⟨c', by simp [connectGateF, hres, linkGate, linkInput], hinv', hprog⟩
            | connection co₀b =>
              cases co₀b with
              | connected j => simp [rawInput, rawConn] at hraw
              | disconnected mb =>
                cases b with
                | signal t => exact (hgl.2 : False).elim
                | connection curb =>
                  obtain ⟨c₁, hresa, hinv₁, hprog₁⟩ := resolveConnF_links hnd hvis Hrec c ma cura
                    hinv hgl.1 (hrefs ma (by simp [gateRefs, inputRefs]))
                  obtain ⟨c₂, hresb, hinv₂, hprog₂⟩ := resolveConnF_links hnd hvis Hrec c₁ mb curb
                    hinv₁ hgl.2 (hrefs mb (by simp [gateRefs, inputRefs]))
                  refine ⟨c₂, by simp [connectGateF, hresa, hresb, linkGate, linkInput], hinv₂, ?_⟩
                  exact gateProgress_trans (by rw [hinv.1, hinv₁.1]) hprog₁ hprog₂
    | single a => exact (hgl : False).elim
    | or a b => exact (hgl : False).elim
    | rshift a k => exact (hgl : False).elim
    | lshift a k => exact (hgl : False).elim
    | not a => exact (hgl : False).elim
  | or a₀ b₀ =>
    cases g with
    | or a b =>
      rw [rawGate, Bool.and_eq_true] at hraw
      cases a₀ with
      | signal s =>
        have ha : a = .signal s := hgl.1
        subst ha
        cases b₀ with
        | signal t =>
          have hb : b = .signal t := hgl.2
          subst hb
          exact ⟨c, by simp [connectGateF, linkGate, linkInput], hinv, gateProgress_refl l c⟩
        | connection co₀ =>
          cases co₀ with
          | connected j => simp [rawInput, rawConn] at hraw
          | disconnected m =>
            cases b with
            | signal t => exact (hgl.2 : False).elim
            | connection cur =>
              obtain ⟨c', hres, hinv', hprog⟩ := resolveConnF_links hnd hvis Hrec c m cur hinv
                hgl.2 (hrefs m (by simp [gateRefs, inputRefs]))
              exact ⟨c', by simp [connectGateF, hres, linkGate, linkInput], hinv', hprog⟩
      | connection co₀ =>
        cases co₀ with
        | connected j => simp [rawInput, rawConn] at hraw
        | disconnected ma =>
          cases a with
          | signal s => exact (hgl.1 : False).elim
          | connection cura =>
            cases b₀ with
            | signal t =>
              have hb : b = .signal t := hgl.2
              subst hb
              obtain ⟨c', hres, hinv', hprog⟩ := resolveConnF_links hnd hvis Hrec c ma cura hinv
                hgl.1 (hrefs ma (by simp [gateRefs, inputRefs]))
              exact ⟨c', by simp [connectGateF, hres, linkGate, linkInput], hinv', hprog⟩
            | connection co₀b =>
              cases co₀b with
              | connected j => simp [rawInput, rawConn] at hraw
              | disconnected mb =>
                cases b with
                | signal t => exact (hgl.2 : False).elim
                | connection curb =>
                  obtain ⟨c₁, hresa, hinv₁, hprog₁⟩ := resolveConnF_links hnd hvis Hrec c ma cura
                    hinv hgl.1 (hrefs ma (by simp [gateRefs, inputRefs]))
                  obtain ⟨c₂, hresb, hinv₂, hprog₂⟩ := resolveConnF_links hnd hvis Hrec c₁ mb curb
                    hinv₁ hgl.2 (hrefs mb (by simp [gateRefs, inputRefs]))
                  refine ⟨c₂, by simp [connectGateF, hresa, hresb, linkGate, linkInput], hinv₂, ?_⟩
                  exact gateProgress_trans (by rw [hinv.1, hinv₁.1]) hprog₁ hprog₂
    | single a => exact (hgl : False).elim
    | and a b => exact (hgl : False).elim
    | rshift a k => exact (hgl : False).elim
    | lshift a k => exact (hgl : False).elim
    | not a => exact (hgl : False).elim
  | rshift a₀ k₀ =>
    cases g with
    | rshift a k =>
      cases hgl.2
      cases a₀ with
      | signal s =>
        have ha : a = .signal s := hgl.1
        subst ha
        exact ⟨c, by simp [connectGateF, linkGate, linkInput], hinv, gateProgress_refl l c⟩
      | connection co₀ =>
        cases co₀ with
        | connected j => simp [rawGate, rawInput, rawConn] at hraw
        | disconnected m =>
          cases a with
          | signal s => exact (hgl.1 : False).elim
          | connection cur =>
            obtain ⟨c', hres, hinv', hprog⟩ := resolveConnF_links hnd hvis Hrec c m cur hinv
              hgl.1 (hrefs m (by simp [gateRefs, inputRefs]))
            exact ⟨c', by simp [connectGateF, hres, linkGate, linkInput], hinv', hprog⟩
    | single a => exact (hgl : False).elim
    | and a b => exact (hgl : False).elim
    | or a b => exact (hgl : False).elim
    | lshift a k => exact (hgl : False).elim
    | not a => exact (hgl : False).elim
  | lshift a₀ k₀ =>
    cases g with
    | lshift a k =>
      cases hgl.2
      cases a₀ with
      | signal s =>
        have ha : a = .signal s := hgl.1
        subst ha
        exact ⟨c, by simp [connectGateF, linkGate, linkInput], hinv, gateProgress_refl l c⟩
      | connection co₀ =>
        cases co₀ with
        | connected j => simp [rawGate, rawInput, rawConn] at hraw
        | disconnected m =>
          cases a with
          | signal s => exact (hgl.1 : False).elim
          | connection cur =>
            obtain ⟨c', hres, hinv', hprog⟩ := resolveConnF_links hnd hvis Hrec c m cur hinv
              hgl.1 (hrefs m (by simp [gateRefs, inputRefs]))
            exact ⟨c', by simp [connectGateF, hres, linkGate, linkInput], hinv', hprog⟩
    | single a => exact (hgl : False).elim
    | and a b => exact (hgl : False).elim
    | or a b => exact (hgl : False).elim
    | rshift a k => exact (hgl : False).elim
    | not a => exact (hgl : False).elim
  | not a₀ =>
    cases g with
    | not a =>
      cases a₀ with
      | signal s =>
        have ha : a = .signal s := hgl
        subst ha
        exact ⟨c, by simp [connectGateF, linkGate, linkInput], hinv, gateProgress_refl l c⟩
      | connection co₀ =>
        cases co₀ with
        | connected j => simp [rawGate, rawInput, rawConn] at hraw
        | disconnected m =>
          cases a with
          | signal s => exact (hgl : False).elim
          | connection cur =>
            obtain ⟨c', hres, hinv', hprog⟩ := resolveConnF_links hnd hvis Hrec c m cur hinv hgl
              (hrefs m (by simp [gateRefs, inputRefs]))
            exact ⟨c', by simp [connectGateF, hres, linkGate, linkInput], hinv', hprog⟩
    | single a => exact (hgl : False).elim
    | and a b => exact (hgl : False).elim
    | or a b => exact (hgl : False).elim
    | rshift a k => exact (hgl : False).elim
    | lshift a k => exact (hgl : False).elim

/-- On acyclic, uniquely named raw definitions, `Wire::connect` succeeds and
leaves the wire's gate exactly `linkGate`, while every other gate is either
untouched or itself fully linked. -/
theorem connectWire_links (l : Defs) (rank : Name → Nat)
    (hraw : rawDefs l) (hnd : (namesOf l).Nodup) (hrk : rankOk rank l) :
    ∀ (r fuel : Nat) (vis : List Nat) (c : Circuit) (i : Nat) (d : Name × Gate),
      linkInv l c → l.get? i = some d → rank d.1 < r →
      (∀ j ∈ vis, ∀ dj, l.get? j = some dj → rank d.1 ≤ rank dj.1) →
      rank d.1 + 1 ≤ fuel →
      ∃ c', connectWire fuel vis c i = some c' ∧ linkInv l c' ∧ gateProgress l c c' ∧
        ∃ w', c'.get? i = some w' ∧ w'.gate = linkGate l d.2 := by
  intro r
  induction r with
  | zero =>
    intro fuel vis c i d _ _ hlt
    omega
  | succ r ih =>
    intro fuel vis c i d hinv hd hlt hvis hfuel
    cases fuel with
    | zero => omega
    | succ f =>
      obtain ⟨w, hw, hname, hsig, hgl⟩ := hinv.2 i d hd
      by_cases hcon : w.gate.is_connected = true
      · have hg : w.gate = linkGate l d.2 :=
          gateLink_connected (hraw d (List.get?_mem hd)) hgl hcon
        refine ⟨c, ?_, hinv, gateProgress_refl l c, w, hw, hg⟩
        simp only [connectWire, hw]
        rw [if_pos hcon]
      · have hvis' : ∀ j ∈ (i :: vis), ∀ dj, l.get? j = some dj → rank d.1 ≤ rank dj.1 := by
          intro j hj dj hdj
          rcases List.mem_cons.1 hj with h | h
          · subst h
            rw [hd] at hdj
            injection hdj with hdj
            rw [hdj]
          · exact hvis j h dj hdj
        have Hrec : ∀ c₀ j dj, linkInv l c₀ → l.get? j = some dj → rank dj.1 < rank d.1 →
            ∃ c₁, connectWire f (i :: vis) c₀ j = some c₁ ∧ linkInv l c₁ ∧
              gateProgress l c₀ c₁ ∧
              ∃ w', c₁.get? j = some w' ∧ w'.gate = linkGate l dj.2 := by
          intro c₀ j dj hinv₀ hdj hdlt
          refine ih f (i :: vis) c₀ j dj hinv₀ hdj (by omega) ?_ (by omega)
          intro j' hj' dj' hdj'
          have := hvis' j' hj' dj' hdj'
          omega
        obtain ⟨c₂, hg, hinv₂, hprog₂⟩ := connectGateF_links hnd hvis' Hrec c d.2 w.gate hinv
          (hraw d (List.get?_mem hd)) hgl
          (fun m hm hs => hrk d (List.get?_mem hd) m hm hs)
        obtain ⟨w₂, hw₂, hn₂, hs₂, _⟩ := hinv₂.2 i d hd
        refine ⟨setGate c₂ i (linkGate l d.2), ?_, ?_, ?_, ?_⟩
        · simp only [connectWire, hw]
          rw [if_neg hcon]
          simp only [hg]
        · refine ⟨by rw [setGate, length_updateAt]; exact hinv₂.1, fun j dj hdj => ?_⟩
          by_cases hij : j = i
          · subst hij
            rw [hd] at hdj
            injection hdj with hdj
            subst hdj
            exact ⟨{ w₂ with gate := linkGate l d.2 }, get?_updateAt_self c₂ j _ w₂ hw₂,
              hn₂, hs₂, gateLink_link (hraw d (List.get?_mem hd))⟩
          · obtain ⟨wj, hwj, hnj, hsj, hglj⟩ := hinv₂.2 j dj hdj
            exact ⟨wj, by rw [setGate, get?_updateAt_ne _ _ _ _ hij, hwj], hnj, hsj, hglj⟩
        · refine gateProgress_trans (by rw [hinv.1, hinv₂.1]) hprog₂ ?_
          intro j wj wj' hwj hwj'
          by_cases hij : j = i
          · subst hij
            rw [setGate] at hwj'
            rw [get?_updateAt_self c₂ j _ wj hwj] at hwj'
            injection hwj' with hwj'
            exact Or.inr ⟨d, hd, by rw [← hwj']⟩
          · rw [setGate, get?_updateAt_ne _ _ _ _ hij, hwj] at hwj'
            injection hwj' with hwj'
            exact Or.inl (by rw [← hwj'])
        · exact ⟨{ w₂ with gate := linkGate l d.2 }, get?_updateAt_self c₂ i _ w₂ hw₂, rfl⟩

/-- Any acyclicity rank can be compressed to one bounded by the number of
definitions (so that the fuel `|wires| + 1` of the assembly loop covers it). -/
def boundedRank (l : Defs) (rank : Name → Nat) (m : Name) : Nat :=
  (((namesOf l).map rank).toFinset.filter (fun x => x < rank m)).card

theorem boundedRank_le (l : Defs) (rank : Name → Nat) (m : Name) :
    boundedRank l rank m ≤ l.length := by
  have h1 := Finset.card_filter_le ((namesOf l).map rank).toFinset (fun x => x < rank m)
  have h2 := List.toFinset_card_le ((namesOf l).map rank)
  have h3 : ((namesOf l).map rank).length = l.length := by simp [namesOf]
  rw [boundedRank]
  omega

theorem boundedRank_ok {l : Defs} {rank : Name → Nat} (h : rankOk rank l) :
    rankOk (boundedRank l rank) l := by
  intro d hd m hm hs
  have hlt := h d hd m hm hs
  have hmem : rank m ∈ ((namesOf l).map rank).toFinset := by
    rw [List.mem_toFinset]
    exact List.mem_map.2 ⟨m, lookupDef_isSome_iff.1 hs, rfl⟩
  have hmono : ((namesOf l).map rank).toFinset.filter (fun x => x < rank m) ⊆
      ((namesOf l).map rank).toFinset.filter (fun x => x < rank d.1) := by
    intro x hx
    rw [Finset.mem_filter] at hx ⊢
    exact ⟨hx.1, by omega⟩
  have hss : ((namesOf l).map rank).toFinset.filter (fun x => x < rank m) ⊂
      ((namesOf l).map rank).toFinset.filter (fun x => x < rank d.1) := by
    rw [Finset.ssubset_iff_of_subset hmono]
    refine ⟨rank m, Finset.mem_filter.2 ⟨hmem, hlt⟩, fun hin => ?_⟩
    have := (Finset.mem_filter.1 hin).2
    omega
  exact Finset.card_lt_card hss

/-- The assembly loop turns the fresh circuit into the fully linked one. -/
theorem connectAllAux_links (l : Defs) (rank : Name → Nat)
    (hraw : rawDefs l) (hnd : (namesOf l).Nodup) (hrk : rankOk rank l)
    (hbd : ∀ m, rank m ≤ l.length) :
    ∀ (k i₀ : Nat) (c : Circuit), linkInv l c →
      (∀ j dj, j < i₀ → l.get? j = some dj →
        ∃ w, c.get? j = some w ∧ w.gate = linkGate l dj.2) →
      l.length ≤ i₀ + k →
      connectAllAux k c i₀ = some (linkedCircuit l) := by
  intro k
  induction k with
  | zero =>
    intro i₀ c hinv hdone hlen
    have hc : c = linkedCircuit l := by
      apply List.ext
      intro n
      rw [linkedCircuit, List.get?_map]
      cases hd : l.get? n with
      | none =>
        have hcn : c.get? n = none := by
          rw [List.get?_eq_none] at hd ⊢
          rw [hinv.1]
          exact hd
        rw [hcn, Option.map_none']
      | some d =>
        have hn : n < l.length := by
          rcases Nat.lt_or_ge n l.length with h | h
          · exact h
          · rw [List.get?_eq_none.2 h] at hd
            cases hd
        obtain ⟨w, hw, hgate⟩ := hdone n d (by omega) hd
        obtain ⟨w', hw', hn', hs', _⟩ := hinv.2 n d hd
        rw [hw] at hw'
        injection hw' with hw'
        subst hw'
        obtain ⟨wn, wg, ws⟩ := w
        simp only at hgate hn' hs'
        rw [hw, Option.map_some', hgate, hn', hs']
    rw [connectAllAux, hc]
  | succ k ih =>
    intro i₀ c hinv hdone hlen
    by_cases hi : i₀ < l.length
    · obtain ⟨d, hd⟩ := get?_some_of_lt hi
      obtain ⟨c', hcw, hinv', hprog', w', hw', hg'⟩ :=
        connectWire_links l rank hraw hnd hrk (rank d.1 + 1) (c.length + 1) [] c i₀ d hinv hd
          (by omega) (by simp) (by rw [hinv.1]; have := hbd d.1; omega)
      simp only [connectAllAux, hcw]
      refine ih (i₀ + 1) c' hinv' ?_ (by omega)
      intro j dj hj hdj
      by_cases hji : j = i₀
      · subst hji
        rw [hd] at hdj
        injection hdj with hdj
        subst hdj
        exact ⟨w', hw', hg'⟩
      · have hj' : j < i₀ := by omega
        obtain ⟨wj, hwj, hgj⟩ := hdone j dj hj' hdj
        have hjl : j < l.length := by
          rcases Nat.lt_or_ge j l.length with h | h
          · exact h
          · rw [List.get?_eq_none.2 h] at hdj
            cases hdj
        obtain ⟨wj', hwj'⟩ := get?_some_of_lt (show j < c'.length by rw [hinv'.1]; exact hjl)
        rcases hprog' j wj wj' hwj hwj' with he | ⟨dj₂, hdj₂, hlink⟩
        · exact ⟨wj', hwj', he.trans hgj⟩
        · rw [hdj] at hdj₂
          injection hdj₂ with hdj₂
          subst hdj₂
          exact ⟨wj', hwj', hlink⟩
    · have hwn : c.get? i₀ = none := by
        rw [List.get?_eq_none, hinv.1]
        omega
      have hsame : connectWire (c.length + 1) [] c i₀ = some c := by
        simp only [connectWire, hwn]
      simp only [connectAllAux, hsame]
      refine ih (i₀ + 1) c hinv ?_ (by omega)
      intro j dj hj hdj
      have hjl : j < l.length := by
        rcases Nat.lt_or_ge j l.length with h | h
        · exact h
        · rw [List.get?_eq_none.2 h] at hdj
          cases hdj
      exact hdone j dj (by omega) hdj

/-- On acyclic, uniquely named raw definitions, assembly produces exactly
the fully linked circuit. -/
theorem assembleDefs_linked (l : Defs) (rank : Name → Nat)
    (hraw : rawDefs l) (hnd : (namesOf l).Nodup) (hrk : rankOk rank l) :
    assembleDefs l = some (linkedCircuit l) := by
  rw [assembleDefs]
  exact connectAllAux_links l (boundedRank l rank) hraw hnd (boundedRank_ok hrk)
    (boundedRank_le l rank) (mkCircuit l).length 0 (mkCircuit l) (linkInv_mk hraw)
    (fun j dj hj _ => absurd hj (Nat.not_lt_zero j)) (by simp [mkCircuit])

/-! ### Facts about the denotation -/

theorem denoteName_unresolvable {l : Defs} {m : Name} (h : lookupDef l m = none) (f : Nat) :
    denoteName f l m = some none := by
  simp only [denoteName, h]

theorem denoteName_succ {l : Defs} {m : Name} {d : Name × Gate} (h : lookupDef l m = some d)
    (f : Nat) : denoteName (f + 1) l m = denoteGateF (denoteName f l) d.2 := by
  simp only [denoteName, h]

theorem denoteInputF_congr {dn dn' : Name → Option (Option Signal)} {a : Input}
    (h : ∀ m ∈ inputRefs a, dn m = dn' m) : denoteInputF dn a = denoteInputF dn' a := by
  cases a with
  | signal s => rfl
  | connection co =>
    cases co with
    | connected j => rfl
    | disconnected m => exact h m (by simp [inputRefs])

theorem denoteGateF_congr {dn dn' : Name → Option (Option Signal)} {g : Gate}
    (h : ∀ m ∈ gateRefs g, dn m = dn' m) : denoteGateF dn g = denoteGateF dn' g := by
  cases g with
  | single a => exact denoteInputF_congr h
  | and a b =>
    have ha : denoteInputF dn a = denoteInputF dn' a :=
      denoteInputF_congr fun m hm => h m (by simp [gateRefs, hm])
    have hb : denoteInputF dn b = denoteInputF dn' b :=
      denoteInputF_congr fun m hm => h m (by simp [gateRefs, hm])
    simp only [denoteGateF, ha, hb]
  | or a b =>
    have ha : denoteInputF dn a = denoteInputF dn' a :=
      denoteInputF_congr fun m hm => h m (by simp [gateRefs, hm])
    have hb : denoteInputF dn b = denoteInputF dn' b :=
      denoteInputF_congr fun m hm => h m (by simp [gateRefs, hm])
    simp only [denoteGateF, ha, hb]
  | rshift a k =>
    have ha : denoteInputF dn a = denoteInputF dn' a :=
      denoteInputF_congr fun m hm => h m (by simp [gateRefs, hm])
    simp only [denoteGateF, ha]
  | lshift a k =>
    have ha : denoteInputF dn a = denoteInputF dn' a :=
      denoteInputF_congr fun m hm => h m (by simp [gateRefs, hm])
    simp only [denoteGateF, ha]
  | not a =>
    have ha : denoteInputF dn a = denoteInputF dn' a :=
      denoteInputF_congr fun m hm => h m (by simp [gateRefs, hm])
    simp only [denoteGateF, ha]

theorem denoteName_stable {l : Defs} {rank : Name → Nat} (hrk : rankOk rank l) :
    ∀ (r : Nat) (m : Name) (f f' : Nat), rank m < r → rank m + 1 ≤ f → rank m + 1 ≤ f' →
      denoteName f l m = denoteName f' l m := by
  intro r
  induction r with
  | zero =>
    intro m f f' h
    omega
  | succ r ih =>
    intro m f f' hr hf hf'
    cases hres : lookupDef l m with
    | none => simp only [denoteName, hres]
    | some d =>
      cases f with
      | zero => omega
      | succ f₁ =>
        cases f' with
        | zero => omega
        | succ f₁' =>
          rw [denoteName_succ hres, denoteName_succ hres]
          apply denoteGateF_congr
          intro m' hm'
          by_cases hs : (lookupDef l m').isSome = true
          · obtain ⟨hdm, hdn⟩ := lookupDef_props hres
            have hlt : rank m' < rank m := by
              have := hrk d hdm m' hm' hs
              rw [hdn] at this
              exact this
            exact ih m' f₁ f₁' (by omega) (by omega) (by omega)
          · have hnone : lookupDef l m' = none := by
              cases hx : lookupDef l m' with
              | none => rfl
              | some _ => rw [hx] at hs; simp at hs
            rw [denoteName_unresolvable hnone, denoteName_unresolvable hnone]

/-- The stable denotation of a resolvable name unfolds through its gate. -/
theorem denoteAt_gate {l : Defs} {rank : Name → Nat} (hrk : rankOk rank l)
    {m : Name} {d : Name × Gate} (hres : lookupDef l m = some d) :
    denoteAt l rank m = denoteGateF (denoteAt l rank) d.2 := by
  rw [denoteAt, denoteName_succ hres]
  apply denoteGateF_congr
  intro m' hm'
  by_cases hs : (lookupDef l m').isSome = true
  · obtain ⟨hdm, hdn⟩ := lookupDef_props hres
    have hlt : rank m' < rank m := by
      have := hrk d hdm m' hm' hs
      rw [hdn] at this
      exact this
    exact denoteName_stable hrk (rank m + 1) m' (rank m) (rank m' + 1)
      (by omega) (by omega) (by omega)
  · have hnone : lookupDef l m' = none := by
      cases hx : lookupDef l m' with
      | none => rfl
      | some _ => rw [hx] at hs; simp at hs
    rw [denoteName_unresolvable hnone, denoteAt, denoteName_unresolvable hnone]

theorem mem_name_unique {l : Defs} (hnd : (namesOf l).Nodup) {d d' : Name × Gate}
    (h : d ∈ l) (h' : d' ∈ l) (he : d.1 = d'.1) : d = d' := by
  obtain ⟨p, hp⟩ := List.mem_iff_get?.1 h
  obtain ⟨p', hp'⟩ := List.mem_iff_get?.1 h'
  have hpl : p < l.length := by
    rcases Nat.lt_or_ge p l.length with hx | hx
    · exact hx
    · rw [List.get?_eq_none.2 hx] at hp
      cases hp
  have hnp : (namesOf l).get? p = some d.1 := namesOf_get? hp
  have hnp' : (namesOf l).get? p' = some d'.1 := namesOf_get? hp'
  have hpp : p = p' := by
    apply List.get?_inj (by simpa [namesOf] using hpl) hnd
    rw [hnp, hnp', he]
  rw [hpp] at hp
  rw [hp] at hp'
  injection hp'

theorem lookupDef_perm {l l' : Defs} (hperm : l.Perm l') (hnd : (namesOf l).Nodup) (m : Name) :
    lookupDef l m = lookupDef l' m := by
  cases hres : lookupDef l m with
  | none =>
    cases hres' : lookupDef l' m with
    | none => rfl
    | some d =>
      obtain ⟨hdmem, hdname⟩ := lookupDef_props hres'
      rw [lookupDef, List.find?_eq_none] at hres
      exact absurd (by simp [hdname]) (hres d ((hperm.mem_iff).2 hdmem))
  | some d =>
    obtain ⟨hdmem, hdname⟩ := lookupDef_props hres
    cases hres' : lookupDef l' m with
    | none =>
      rw [lookupDef, List.find?_eq_none] at hres'
      exact absurd (by simp [hdname]) (hres' d ((hperm.mem_iff).1 hdmem))
    | some d' =>
      obtain ⟨hdmem', hdname'⟩ := lookupDef_props hres'
      rw [mem_name_unique hnd hdmem ((hperm.mem_iff).2 hdmem') (hdname.trans hdname'.symm)]

theorem denoteName_perm {l l' : Defs} (hperm : l.Perm l') (hnd : (namesOf l).Nodup) :
    ∀ (f : Nat) (m : Name), denoteName f l m = denoteName f l' m := by
  intro f
  induction f with
  | zero =>
    intro m
    have hl := lookupDef_perm hperm hnd m
    cases hres : lookupDef l m with
    | none =>
      have hres' : lookupDef l' m = none := by rw [← hl]; exact hres
      rw [denoteName_unresolvable hres, denoteName_unresolvable hres']
    | some d =>
      have hres' : lookupDef l' m = some d := by rw [← hl]; exact hres
      simp only [denoteName, hres, hres']
  | succ f ih =>
    intro m
    have hl := lookupDef_perm hperm hnd m
    cases hres : lookupDef l m with
    | none =>
      have hres' : lookupDef l' m = none := by rw [← hl]; exact hres
      rw [denoteName_unresolvable hres, denoteName_unresolvable hres']
    | some d =>
      have hres' : lookupDef l' m = some d := by rw [← hl]; exact hres
      rw [denoteName_succ hres, denoteName_succ hres']
      exact denoteGateF_congr fun m' _ => ih m'

/-! ### The memoized evaluator computes the denotation -/

/-- Caches agree with the denotation, gates are fully linked. -/
def evalInv (l : Defs) (rank : Name → Nat) (c : Circuit) : Prop :=
  c.length = l.length ∧
  ∀ i d, l.get? i = some d → ∃ w, c.get? i = some w ∧ w.name = d.1 ∧
    w.gate = linkGate l d.2 ∧
    ∀ v, w.signal = some v → denoteAt l rank d.1 = some (some v)

theorem evalInv_linked {l : Defs} (rank : Name → Nat) :
    evalInv l rank (linkedCircuit l) := by
  refine ⟨by simp [linkedCircuit], fun i d hd => ?_⟩
  refine ⟨⟨d.1, linkGate l d.2, none⟩, ?_, rfl, rfl, fun v hv => by cases hv⟩
  rw [linkedCircuit, List.get?_map, hd, Option.map_some']

/-- The simulation relation between a denotation outcome and an evaluator
outcome: equal panics, or equal values with the invariant maintained. -/
def SimRes (l : Defs) (rank : Name → Nat) (dres : Option (Option Signal))
    (eres : Option (Option Signal × Circuit × Nat)) : Prop :=
  match dres with
  | none => eres = none
  | some r => ∃ c' k, eres = some (r, c', k) ∧ evalInv l rank c'

theorem evalInputF_denotes {l : Defs} {rank : Name → Nat} {R fuel : Nat} {vis : List Nat}
    (hnd : (namesOf l).Nodup)
    (Hrec : ∀ c₀ j dj, evalInv l rank c₀ → l.get? j = some dj → rank dj.1 < R →
      SimRes l rank (denoteAt l rank dj.1) (evalWire fuel vis c₀ j)) :
    ∀ (c : Circuit) (a₀ : Input), evalInv l rank c → rawInput a₀ = true →
      (∀ m ∈ inputRefs a₀, (lookupDef l m).isSome = true → rank m < R) →
      SimRes l rank (denoteInputF (denoteAt l rank) a₀)
        (evalInputF (evalWire fuel vis) c (linkInput l a₀)) := by
  intro c a₀ hinv hraw hrefs
  cases a₀ with
  | signal s => exact ⟨c, 0, rfl, hinv⟩
  | connection co =>
    cases co with
    | connected j => simp [rawInput, rawConn] at hraw
    | disconnected m =>
      cases hres : lookupDef l m with
      | none =>
        have hnm : m ∉ namesOf l := by
          intro hmem
          have := lookupDef_isSome_iff.2 hmem
          rw [hres] at this
          cases this
        have hlc : linkConn l (.disconnected m) = .disconnected m := by
          rw [linkConn, idxOfName_none hnm]
        have hdn : denoteInputF (denoteAt l rank) (.connection (.disconnected m)) = some none := by
          rw [denoteInputF, denoteAt, denoteName_unresolvable hres]
        rw [hdn]
        exact ⟨c, 0, by simp [linkInput, hlc, evalInputF, evalConnF], hinv⟩
      | some dm =>
        have hrm : rank m < R := hrefs m (by simp [inputRefs]) (by rw [hres]; rfl)
        have hmem : m ∈ namesOf l := lookupDef_isSome_iff.1 (by rw [hres]; rfl)
        obtain ⟨p, d₀, hp, hp1⟩ := exists_idx_of_mem_names hmem
        have hpn : (namesOf l).get? p = some m := by rw [namesOf_get? hp, hp1]
        have hlc : linkConn l (.disconnected m) = .connected p := by
          rw [linkConn, idxOfName_of_get? hnd hpn]
        have hsim := Hrec c p d₀ hinv hp (by rw [hp1]; exact hrm)
        rw [hp1] at hsim
        have heval : evalInputF (evalWire fuel vis) c (linkInput l (.connection (.disconnected m))) =
            evalWire fuel vis c p := by
          simp [linkInput, hlc, evalInputF, evalConnF]
        rw [heval]
        exact hsim

theorem evalGateF_denotes {l : Defs} {rank : Name → Nat} {R fuel : Nat} {vis : List Nat}
    (hnd : (namesOf l).Nodup)
    (Hrec : ∀ c₀ j dj, evalInv l rank c₀ → l.get? j = some dj → rank dj.1 < R →
      SimRes l rank (denoteAt l rank dj.1) (evalWire fuel vis c₀ j)) :
    ∀ (c : Circuit) (g₀ : Gate), evalInv l rank c → rawGate g₀ = true →
      (∀ m ∈ gateRefs g₀, (lookupDef l m).isSome = true → rank m < R) →
      SimRes l rank (denoteGateF (denoteAt l rank) g₀)
        (evalGateF (evalWire fuel vis) c (linkGate l g₀)) := by
  intro c g₀ hinv hraw hrefs
  cases g₀ with
  | single a =>
    have Ia := evalInputF_denotes hnd Hrec c a hinv (by simpa [rawGate] using hraw)
      (fun m hm => hrefs m (by simpa [gateRefs] using hm))
    simpa [denoteGateF, evalGateF, linkGate] using Ia
  | and a b =>
    rw [rawGate, Bool.and_eq_true] at hraw
    have Ia := evalInputF_denotes hnd Hrec c a hinv hraw.1
      (fun m hm => hrefs m (by simp [gateRefs, hm]))
    cases hda : denoteInputF (denoteAt l rank) a with
    | none =>
      rw [hda] at Ia
      have Ia' : evalInputF (evalWire fuel vis) c (linkInput l a) = none := Ia
      have hd : denoteGateF (denoteAt l rank) (.and a b) = none := by
        simp [denoteGateF, hda]
      rw [hd]
      show evalGateF (evalWire fuel vis) c (linkGate l (.and a b)) = none
      simp [evalGateF, linkGate, Ia']
    | some ra =>
      rw [hda] at Ia
      obtain ⟨c₁, k₁, heva, hinv₁⟩ := Ia
      cases ra with
      | none =>
        have hd : denoteGateF (denoteAt l rank) (.and a b) = some none := by
          simp [denoteGateF, hda]
        rw [hd]
        exact ⟨c₁, k₁, by simp [evalGateF, linkGate, heva], hinv₁⟩
      | some x =>
        have Ib := evalInputF_denotes hnd Hrec c₁ b hinv₁ hraw.2
          (fun m hm => hrefs m (by simp [gateRefs, hm]))
        cases hdb : denoteInputF (denoteAt l rank) b with
        | none =>
          rw [hdb] at Ib
          have Ib' : evalInputF (evalWire fuel vis) c₁ (linkInput l b) = none := Ib
          have hd : denoteGateF (denoteAt l rank) (.and a b) = none := by
            simp [denoteGateF, hda, hdb]
          rw [hd]
          show evalGateF (evalWire fuel vis) c (linkGate l (.and a b)) = none
          simp [evalGateF, linkGate, heva, Ib']
        | some rb =>
          rw [hdb] at Ib
          obtain ⟨c₂, k₂, hevb, hinv₂⟩ := Ib
          cases rb with
          | none =>
            have hd : denoteGateF (denoteAt l rank) (.and a b) = some none := by
              simp [denoteGateF, hda, hdb]
            rw [hd]
            exact ⟨c₂, k₁ + k₂, by simp [evalGateF, linkGate, heva, hevb], hinv₂⟩
          | some y =>
            have hd : denoteGateF (denoteAt l rank) (.and a b) = some (some (x &&& y)) := by
              simp [denoteGateF, hda, hdb]
            rw [hd]
            exact ⟨c₂, k₁ + k₂, by simp [evalGateF, linkGate, heva, hevb], hinv₂⟩
  | or a b =>
    rw [rawGate, Bool.and_eq_true] at hraw
    have Ia := evalInputF_denotes hnd Hrec c a hinv hraw.1
      (fun m hm => hrefs m (by simp [gateRefs, hm]))
    cases hda : denoteInputF (denoteAt l rank) a with
    | none =>
      rw [hda] at Ia
      have Ia' : evalInputF (evalWire fuel vis) c (linkInput l a) = none := Ia
      have hd : denoteGateF (denoteAt l rank) (.or a b) = none := by
        simp [denoteGateF, hda]
      rw [hd]
      show evalGateF (evalWire fuel vis) c (linkGate l (.or a b)) = none
      simp [evalGateF, linkGate, Ia']
    | some ra =>
      rw [hda] at Ia
      obtain ⟨c₁, k₁, heva, hinv₁⟩ := Ia
      cases ra with
      | none =>
        have hd : denoteGateF (denoteAt l rank) (.or a b) = some none := by
          simp [denoteGateF, hda]
        rw [hd]
        exact ⟨c₁, k₁, by simp [evalGateF, linkGate, heva], hinv₁⟩
      | some x =>
        have Ib := evalInputF_denotes hnd Hrec c₁ b hinv₁ hraw.2
          (fun m hm => hrefs m (by simp [gateRefs, hm]))
        cases hdb : denoteInputF (denoteAt l rank) b with
        | none =>
          rw [hdb] at Ib
          have Ib' : evalInputF (evalWire fuel vis) c₁ (linkInput l b) = none := Ib
          have hd : denoteGateF (denoteAt l rank) (.or a b) = none := by
            simp [denoteGateF, hda, hdb]
          rw [hd]
          show evalGateF (evalWire fuel vis) c (linkGate l (.or a b)) = none
          simp [evalGateF, linkGate, heva, Ib']
        | some rb =>
          rw [hdb] at Ib
          obtain ⟨c₂, k₂, hevb, hinv₂⟩ := Ib
          cases rb with
          | none =>
            have hd : denoteGateF (denoteAt l rank) (.or a b) = some none := by
              simp [denoteGateF, hda, hdb]
            rw [hd]
            exact ⟨c₂, k₁ + k₂, by simp [evalGateF, linkGate, heva, hevb], hinv₂⟩
          | some y =>
            have hd : denoteGateF (denoteAt l rank) (.or a b) = some (some (x ||| y)) := by
              simp [denoteGateF, hda, hdb]
            rw [hd]
            exact ⟨c₂, k₁ + k₂, by simp [evalGateF, linkGate, heva, hevb], hinv₂⟩
  | rshift a k =>
    have Ia := evalInputF_denotes hnd Hrec c a hinv (by simpa [rawGate] using hraw)
      (fun m hm => hrefs m (by simpa [gateRefs] using hm))
    cases hda : denoteInputF (denoteAt l rank) a with
    | none =>
      rw [hda] at Ia
      have Ia' : evalInputF (evalWire fuel vis) c (linkInput l a) = none := Ia
      have hd : denoteGateF (denoteAt l rank) (.rshift a k) = none := by
        simp [denoteGateF, hda]
      rw [hd]
      show evalGateF (evalWire fuel vis) c (linkGate l (.rshift a k)) = none
      simp [evalGateF, linkGate, Ia']
    | some ra =>
      rw [hda] at Ia
      obtain ⟨c₁, k₁, heva, hinv₁⟩ := Ia
      cases ra with
      | none =>
        have hd : denoteGateF (denoteAt l rank) (.rshift a k) = some none := by
          simp [denoteGateF, hda]
        rw [hd]
        exact ⟨c₁, k₁, by simp [evalGateF, linkGate, heva], hinv₁⟩
      | some s =>
        by_cases hk : k < 16
        · have hd : denoteGateF (denoteAt l rank) (.rshift a k) = some (some (s >>> k)) := by
            simp [denoteGateF, hda, hk]
          rw [hd]
          exact ⟨c₁, k₁, by simp [evalGateF, linkGate, heva, hk], hinv₁⟩
        · have hd : denoteGateF (denoteAt l rank) (.rshift a k) = none := by
            simp [denoteGateF, hda, hk]
          rw [hd]
          show evalGateF (evalWire fuel vis) c (linkGate l (.rshift a k)) = none
          simp [evalGateF, linkGate, heva, hk]
  | lshift a k =>
    have Ia := evalInputF_denotes hnd Hrec c a hinv (by simpa [rawGate] using hraw)
      (fun m hm => hrefs m (by simpa [gateRefs] using hm))
    cases hda : denoteInputF (denoteAt l rank) a with
    | none =>
      rw [hda] at Ia
      have Ia' : evalInputF (evalWire fuel vis) c (linkInput l a) = none := Ia
      have hd : denoteGateF (denoteAt l rank) (.lshift a k) = none := by
        simp [denoteGateF, hda]
      rw [hd]
      show evalGateF (evalWire fuel vis) c (linkGate l (.lshift a k)) = none
      simp [evalGateF, linkGate, Ia']
    | some ra =>
      rw [hda] at Ia
      obtain ⟨c₁, k₁, heva, hinv₁⟩ := Ia
      cases ra with
      | none =>
        have hd : denoteGateF (denoteAt l rank) (.lshift a k) = some none := by
          simp [denoteGateF, hda]
        rw [hd]
        exact ⟨c₁, k₁, by simp [evalGateF, linkGate, heva], hinv₁⟩
      | some s =>
        by_cases hk : k < 16
        · have hd : denoteGateF (denoteAt l rank) (.lshift a k) =
              some (some ((s <<< k) % 65536)) := by
            simp [denoteGateF, hda, hk]
          rw [hd]
          exact ⟨c₁, k₁, by simp [evalGateF, linkGate, heva, hk], hinv₁⟩
        · have hd : denoteGateF (denoteAt l rank) (.lshift a k) = none := by
            simp [denoteGateF, hda, hk]
          rw [hd]
          show evalGateF (evalWire fuel vis) c (linkGate l (.lshift a k)) = none
          simp [evalGateF, linkGate, heva, hk]
  | not a =>
    have Ia := evalInputF_denotes hnd Hrec c a hinv (by simpa [rawGate] using hraw)
      (fun m hm => hrefs m (by simpa [gateRefs] using hm))
    cases hda : denoteInputF (denoteAt l rank) a with
    | none =>
      rw [hda] at Ia
      have Ia' : evalInputF (evalWire fuel vis) c (linkInput l a) = none := Ia
      have hd : denoteGateF (denoteAt l rank) (.not a) = none := by
        simp [denoteGateF, hda]
      rw [hd]
      show evalGateF (evalWire fuel vis) c (linkGate l (.not a)) = none
      simp [evalGateF, linkGate, Ia']
    | some ra =>
      rw [hda] at Ia
      obtain ⟨c₁, k₁, heva, hinv₁⟩ := Ia
      cases ra with
      | none =>
        have hd : denoteGateF (denoteAt l rank) (.not a) = some none := by
          simp [denoteGateF, hda]
        rw [hd]
        exact ⟨c₁, k₁, by simp [evalGateF, linkGate, heva], hinv₁⟩
      | some s =>
        have hd : denoteGateF (denoteAt l rank) (.not a) = some (some (s ^^^ 65535)) := by
          simp [denoteGateF, hda]
        rw [hd]
        exact ⟨c₁, k₁, by simp [evalGateF, linkGate, heva], hinv₁⟩

/-- On an acyclic, uniquely named circuit whose caches agree with the
denotation, `Wire::get_signal` computes exactly the denotation of the
wire's name, and preserves the invariant. -/
theorem evalWire_denotes (l : Defs) (rank : Name → Nat)
    (hraw : rawDefs l) (hnd : (namesOf l).Nodup) (hrk : rankOk rank l) :
    ∀ (r fuel : Nat) (vis : List Nat) (c : Circuit) (i : Nat) (d : Name × Gate),
      evalInv l rank c → l.get? i = some d → rank d.1 < r →
      (∀ j ∈ vis, ∀ dj, l.get? j = some dj → rank d.1 < rank dj.1) →
      rank d.1 + 1 ≤ fuel →
      SimRes l rank (denoteAt l rank d.1) (evalWire fuel vis c i) := by
  intro r
  induction r with
  | zero =>
    intro fuel vis c i d _ _ hlt
    omega
  | succ r ih =>
    intro fuel vis c i d hinv hd hlt hvis hfuel
    cases fuel with
    | zero => omega
    | succ f =>
      obtain ⟨w, hw, hname, hgate, hcache⟩ := hinv.2 i d hd
      have hiv : i ∉ vis := fun hmem => absurd (hvis i hmem d hd) (lt_irrefl _)
      cases hsig : w.signal with
      | some v =>
        have hdv : denoteAt l rank d.1 = some (some v) := hcache v hsig
        rw [hdv]
        exact ⟨c, 0, evalWire_cache_hit hw hsig hiv, hinv⟩
      | none =>
        have Hrec : ∀ c₀ j dj, evalInv l rank c₀ → l.get? j = some dj →
            rank dj.1 < rank d.1 →
            SimRes l rank (denoteAt l rank dj.1) (evalWire f (i :: vis) c₀ j) := by
          intro c₀ j dj hinv₀ hdj hdlt
          refine ih f (i :: vis) c₀ j dj hinv₀ hdj (by omega) ?_ (by omega)
          intro j' hj' dj' hdj'
          rcases List.mem_cons.1 hj' with h | h
          · subst h
            rw [hd] at hdj'
            injection hdj' with hdj'
            rw [← hdj']
            exact hdlt
          · exact lt_trans hdlt (hvis j' h dj' hdj')
        have hlook : lookupDef l d.1 = some d := lookupDef_get? hnd hd
        have hdgate : denoteAt l rank d.1 = denoteGateF (denoteAt l rank) d.2 :=
          denoteAt_gate hrk hlook
        have Hg := evalGateF_denotes hnd Hrec c d.2 hinv (hraw d (List.get?_mem hd))
          (fun m hm hs => hrk d (List.get?_mem hd) m hm hs)
        rw [hdgate]
        cases hdg : denoteGateF (denoteAt l rank) d.2 with
        | none =>
          rw [hdg] at Hg
          have Hg' : evalGateF (evalWire f (i :: vis)) c (linkGate l d.2) = none := Hg
          show evalWire (f + 1) vis c i = none
          simp only [evalWire, hw, hsig, hgate, Hg']
          rw [if_neg hiv]
        | some res =>
          rw [hdg] at Hg
          obtain ⟨c₂, k₂, hev, hinv₂⟩ := Hg
          obtain ⟨w₂, hw₂, hn₂, hg₂, _⟩ := hinv₂.2 i d hd
          refine ⟨setSignal c₂ i res, k₂ + 1, ?_, ?_⟩
          · show evalWire (f + 1) vis c i = some (res, setSignal c₂ i res, k₂ + 1)
            simp only [evalWire, hw, hsig, hgate, hev]
            rw [if_neg hiv]
          · refine ⟨by rw [setSignal, length_updateAt]; exact hinv₂.1, fun j dj hdj => ?_⟩
            by_cases hij : j = i
            · subst hij
              rw [hd] at hdj
              injection hdj with hdj
              subst hdj
              refine ⟨{ w₂ with signal := res }, get?_updateAt_self c₂ j _ w₂ hw₂,
                hn₂, hg₂, ?_⟩
              intro v hv
              rw [hdgate, hdg, show res = some v from hv]
            · obtain ⟨wj, hwj, hnj, hgj, hcj⟩ := hinv₂.2 j dj hdj
              exact ⟨wj, by rw [setSignal, get?_updateAt_ne _ _ _ _ hij, hwj], hnj, hgj, hcj⟩

/-! ### From the evaluator theorem to the public API -/

theorem evalInv_names {l : Defs} {rank : Name → Nat} {c : Circuit} (h : evalInv l rank c) :
    c.map Wire.name = namesOf l := by
  apply List.ext
  intro n
  rw [List.get?_map, namesOf, List.get?_map]
  cases hd : l.get? n with
  | some d =>
    obtain ⟨w, hw, hn, _, _⟩ := h.2 n d hd
    rw [hw, Option.map_some', Option.map_some', hn]
  | none =>
    have : c.get? n = none := by
      rw [List.get?_eq_none] at hd ⊢
      rw [h.1]
      exact hd
    rw [this]
    rfl

/-- The caller visible value of `Circuit::get`. -/
def getValue (c : Circuit) (m : Name) : Option (Option Signal) :=
  (circuitGet c m).map fun t => t.1

theorem circuitGet_denotes (l : Defs) (rank : Name → Nat)
    (hraw : rawDefs l) (hnd : (namesOf l).Nodup) (hrk : rankOk rank l)
    (hbd : ∀ m', rank m' ≤ l.length)
    (c : Circuit) (hinv : evalInv l rank c) (m : Name) :
    SimRes l rank (denoteAt l rank m) (circuitGet c m) := by
  cases hres : lookupDef l m with
  | none =>
    have hnm : m ∉ namesOf l := by
      intro hmem
      have := lookupDef_isSome_iff.2 hmem
      rw [hres] at this
      cases this
    have hfind : circuitFind c m = none := by
      rw [circuitFind, findWireIdx, evalInv_names hinv]
      exact findIdxFrom_none_of_not_mem [] m 0 (namesOf l) hnm
    have hdm : denoteAt l rank m = some none := by
      rw [denoteAt, denoteName_unresolvable hres]
    rw [hdm]
    exact ⟨c, 0, by simp [circuitGet, hfind], hinv⟩
  | some dm =>
    have hmem : m ∈ namesOf l := lookupDef_isSome_iff.1 (by rw [hres]; rfl)
    obtain ⟨p, d₀, hp, hp1⟩ := exists_idx_of_mem_names hmem
    have hpn : (namesOf l).get? p = some m := by rw [namesOf_get? hp, hp1]
    have hfind : circuitFind c m = some p := by
      rw [circuitFind, findWireIdx, evalInv_names hinv]
      have := findIdxFrom_nodup_spec [] m 0 p (namesOf l) hnd hpn (by simp)
      simpa using this
    have hsim := evalWire_denotes l rank hraw hnd hrk (rank d₀.1 + 1) (c.length + 1) [] c p d₀
      hinv hp (by omega) (by simp) (by rw [hinv.1]; have := hbd d₀.1; omega)
    rw [hp1] at hsim
    have : circuitGet c m = evalWire (c.length + 1) [] c p := by
      simp [circuitGet, hfind]
    rw [this]
    exact hsim

theorem runGet_denotes (l : Defs) (rank : Name → Nat)
    (hraw : rawDefs l) (hnd : (namesOf l).Nodup) (hrk : rankOk rank l) (m : Name) :
    runGet l m = denoteAt l (boundedRank l rank) m := by
  have hok := boundedRank_ok hrk
  have hbd := boundedRank_le l rank
  have hsim := circuitGet_denotes l (boundedRank l rank) hraw hnd hok hbd (linkedCircuit l)
    (evalInv_linked (boundedRank l rank)) m
  rw [runGet, assembleDefs_linked l rank hraw hnd hrk]
  cases hdm : denoteAt l (boundedRank l rank) m with
  | none =>
    rw [hdm] at hsim
    have h : circuitGet (linkedCircuit l) m = none := hsim
    simp [h]
  | some res =>
    rw [hdm] at hsim
    obtain ⟨c', k, heq, _⟩ := hsim
    simp [heq]

theorem getValue_denotes (l : Defs) (rank : Name → Nat)
    (hraw : rawDefs l) (hnd : (namesOf l).Nodup) (hrk : rankOk rank l)
    (hbd : ∀ m', rank m' ≤ l.length)
    (c : Circuit) (hinv : evalInv l rank c) (m : Name) :
    getValue c m = denoteAt l rank m := by
  have hsim := circuitGet_denotes l rank hraw hnd hrk hbd c hinv m
  cases hdm : denoteAt l rank m with
  | none =>
    rw [hdm] at hsim
    have h : circuitGet c m = none := hsim
    rw [getValue, h]
    rfl
  | some res =>
    rw [hdm] at hsim
    obtain ⟨c', k, heq, _⟩ := hsim
    rw [getValue, heq]
    rfl

/-- Two acyclicity ranks give the same stable denotation. -/
theorem denoteAt_rank_irrel {l : Defs} {rank₁ rank₂ : Name → Nat}
    (h₁ : rankOk rank₁ l) (h₂ : rankOk rank₂ l) (m : Name) :
    denoteAt l rank₁ m = denoteAt l rank₂ m := by
  have e₁ := denoteName_stable h₁ (rank₁ m + 1) m (rank₁ m + 1)
    (max (rank₁ m) (rank₂ m) + 1) (by omega) (by omega) (by omega)
  have e₂ := denoteName_stable h₂ (rank₂ m + 1) m (rank₂ m + 1)
    (max (rank₁ m) (rank₂ m) + 1) (by omega) (by omega) (by omega)
  rw [denoteAt, denoteAt, e₁, e₂]

/-! ### C3 -/

theorem namesOf_perm {l l' : Defs} (h : l.Perm l') : (namesOf l).Perm (namesOf l') :=
  h.map Prod.fst

theorem boundedRank_perm {l l' : Defs} (h : l.Perm l') (rank : Name → Nat) (m : Name) :
    boundedRank l rank m = boundedRank l' rank m := by
  rw [boundedRank, boundedRank,
    List.toFinset_eq_of_perm _ _ ((namesOf_perm h).map rank)]

/-- C3: assembling any permutation of a well formed set of definitions
(raw references, unique names, acyclic by a rank) and then querying any
wire name gives exactly the same outcome as the original order. -/
theorem assemble_order_independent (l l' : Defs) (rank : Name → Nat)
    (hperm : l.Perm l') (hraw : rawDefs l) (hnd : (namesOf l).Nodup)
    (hrk : rankOk rank l) (m : Name) :
    runGet l m = runGet l' m := by
  have hraw' : rawDefs l' := fun d hd => hraw d (hperm.mem_iff.2 hd)
  have hnd' : (namesOf l').Nodup := ((namesOf_perm hperm).nodup_iff).1 hnd
  have hrk' : rankOk rank l' := by
    intro d hd m' hm' hs
    apply hrk d (hperm.mem_iff.2 hd) m' hm'
    rw [lookupDef_perm hperm hnd m']
    exact hs
  rw [runGet_denotes l rank hraw hnd hrk m, runGet_denotes l' rank hraw' hnd' hrk' m]
  rw [denoteAt, denoteAt, boundedRank_perm hperm rank m]
  exact denoteName_perm hperm hnd (boundedRank l' rank m + 1) m

/-- `exampleDefsA` in the opposite order. -/
def exampleDefsArev : Defs :=
  [("d", .and (.connection (.disconnected "x")) (.connection (.disconnected "x"))),
   ("x", .single (.signal 123))]

/-- A concrete acyclicity rank for the example definitions. -/
def exampleRank : Name → Nat := fun m => if m = "x" then 0 else 1

/-- Witness for C3 at a concrete pair of permuted definition lists. -/
theorem assemble_order_independent_witness :
    runGet exampleDefsA "d" = runGet exampleDefsArev "d" :=
  assemble_order_independent exampleDefsA exampleDefsArev exampleRank
    (by decide)
    (by decide : ∀ d ∈ exampleDefsA, rawGate d.2 = true)
    (by decide)
    (by decide : ∀ d ∈ exampleDefsA, ∀ m ∈ gateRefs d.2,
      (lookupDef exampleDefsA m).isSome = true → exampleRank m < exampleRank d.1)
    "d"

/-! ### C8 -/

/-- All shift amounts of a gate stay below the width (no checked-shift panic). -/
def shiftOkGate : Gate → Bool
  | .rshift _ k => decide (k < 16)
  | .lshift _ k => decide (k < 16)
  | _ => true

def shiftOkDefs (l : Defs) : Prop := ∀ d ∈ l, shiftOkGate d.2 = true

/-- Transitive dependency between names, following the textual references
of the definitions. -/
inductive DependsOn (l : Defs) : Name → Name → Prop where
  | refl (m : Name) : DependsOn l m m
  | step {m m' m'' : Name} {d : Name × Gate} :
      lookupDef l m = some d → m' ∈ gateRefs d.2 → DependsOn l m' m'' → DependsOn l m m''

theorem mem_inputRefs {a : Input} {m : Name} (h : m ∈ inputRefs a) :
    a = .connection (.disconnected m) := by
  cases a with
  | signal s => simp [inputRefs] at h
  | connection co =>
    cases co with
    | connected j => simp [inputRefs] at h
    | disconnected m' =>
      simp [inputRefs] at h
      rw [h]

theorem denoteInputF_no_panic {dn : Name → Option (Option Signal)} {a : Input}
    (h : ∀ m ∈ inputRefs a, dn m ≠ none) : denoteInputF dn a ≠ none := by
  cases a with
  | signal s => simp [denoteInputF]
  | connection co =>
    cases co with
    | connected j => simp [denoteInputF]
    | disconnected m => exact h m (by simp [inputRefs])

theorem denoteGateF_no_panic {dn : Name → Option (Option Signal)} {g : Gate}
    (hso : shiftOkGate g = true) (h : ∀ m ∈ gateRefs g, dn m ≠ none) :
    denoteGateF dn g ≠ none := by
  cases g with
  | single a => exact denoteInputF_no_panic h
  | and a b =>
    have ha := denoteInputF_no_panic
      (fun m (hm : m ∈ inputRefs a) => h m (by simp [gateRefs]; exact Or.inl hm))
    have hb := denoteInputF_no_panic
      (fun m (hm : m ∈ inputRefs b) => h m (by simp [gateRefs]; exact Or.inr hm))
    cases hda : denoteInputF dn a with
    | none => exact absurd hda ha
    | some ra =>
      cases ra with
      | none => simp [denoteGateF, hda]
      | some x =>
        cases hdb : denoteInputF dn b with
        | none => exact absurd hdb hb
        | some rb =>
          cases rb with
          | none => simp [denoteGateF, hda, hdb]
          | some y => simp [denoteGateF, hda, hdb]
  | or a b =>
    have ha := denoteInputF_no_panic
      (fun m (hm : m ∈ inputRefs a) => h m (by simp [gateRefs]; exact Or.inl hm))
    have hb := denoteInputF_no_panic
      (fun m (hm : m ∈ inputRefs b) => h m (by simp [gateRefs]; exact Or.inr hm))
    cases hda : denoteInputF dn a with
    | none => exact absurd hda ha
    | some ra =>
      cases ra with
      | none => simp [denoteGateF, hda]
      | some x =>
        cases hdb : denoteInputF dn b with
        | none => exact absurd hdb hb
        | some rb =>
          cases rb with
          | none => simp [denoteGateF, hda, hdb]
          | some y => simp [denoteGateF, hda, hdb]
  | rshift a k =>
    have hk : k < 16 := of_decide_eq_true (by simpa [shiftOkGate] using hso)
    have ha := denoteInputF_no_panic (fun m hm => h m (by simpa [gateRefs] using hm))
    cases hda : denoteInputF dn a with
    | none => exact absurd hda ha
    | some ra =>
      cases ra with
      | none => simp [denoteGateF, hda]
      | some s => simp [denoteGateF, hda, hk]
  | lshift a k =>
    have hk : k < 16 := of_decide_eq_true (by simpa [shiftOkGate] using hso)
    have ha := denoteInputF_no_panic (fun m hm => h m (by simpa [gateRefs] using hm))
    cases hda : denoteInputF dn a with
    | none => exact absurd hda ha
    | some ra =>
      cases ra with
      | none => simp [denoteGateF, hda]
      | some s => simp [denoteGateF, hda, hk]
  | not a =>
    have ha := denoteInputF_no_panic (fun m hm => h m (by simpa [gateRefs] using hm))
    cases hda : denoteInputF dn a with
    | none => exact absurd hda ha
    | some ra =>
      cases ra with
      | none => simp [denoteGateF, hda]
      | some s => simp [denoteGateF, hda]

theorem denoteName_no_panic {l : Defs} {rank : Name → Nat}
    (hrk : rankOk rank l) (hso : shiftOkDefs l) :
    ∀ (r : Nat) (m : Name) (f : Nat), rank m < r → rank m + 1 ≤ f →
      denoteName f l m ≠ none := by
  intro r
  induction r with
  | zero =>
    intro m f h
    omega
  | succ r ih =>
    intro m f hr hf
    cases hres : lookupDef l m with
    | none => rw [denoteName_unresolvable hres]; simp
    | some d =>
      cases f with
      | zero => omega
      | succ f₁ =>
        rw [denoteName_succ hres]
        obtain ⟨hdm, hdn⟩ := lookupDef_props hres
        apply denoteGateF_no_panic (hso d hdm)
        intro m' hm'
        by_cases hs : (lookupDef l m').isSome = true
        · have hlt : rank m' < rank m := by
            have := hrk d hdm m' hm' hs
            rw [hdn] at this
            exact this
          exact ih m' f₁ (by omega) (by omega)
        · have hnone : lookupDef l m' = none := by
            cases hx : lookupDef l m' with
            | none => rfl
            | some _ => rw [hx] at hs; simp at hs
          rw [denoteName_unresolvable hnone]
          simp

theorem denoteAt_no_panic {l : Defs} {rank : Name → Nat}
    (hrk : rankOk rank l) (hso : shiftOkDefs l) (m : Name) :
    denoteAt l rank m ≠ none :=
  denoteName_no_panic hrk hso (rank m + 1) m (rank m + 1) (by omega) (by omega)

theorem denoteGateF_strict {dn : Name → Option (Option Signal)} {g : Gate} {m' : Name}
    (hm : m' ∈ gateRefs g) (hnone : dn m' = some none)
    (hnp : ∀ m'' ∈ gateRefs g, dn m'' ≠ none) : denoteGateF dn g = some none := by
  cases g with
  | single a =>
    have ha := mem_inputRefs (show m' ∈ inputRefs a from hm)
    subst ha
    simp [denoteGateF, denoteInputF, hnone]
  | and a b =>
    rcases List.mem_append.1 (show m' ∈ inputRefs a ++ inputRefs b from hm) with hma | hmb
    · have ha := mem_inputRefs hma
      subst ha
      simp [denoteGateF, denoteInputF, hnone]
    · have hb := mem_inputRefs hmb
      subst hb
      have ha := denoteInputF_no_panic
        (fun m'' (hm'' : m'' ∈ inputRefs a) => hnp m'' (by simp [gateRefs]; exact Or.inl hm''))
      have hbv : denoteInputF dn (.connection (.disconnected m')) = some none := hnone
      cases hda : denoteInputF dn a with
      | none => exact absurd hda ha
      | some ra =>
        cases ra with
        | none => simp [denoteGateF, hda]
        | some x => simp [denoteGateF, hda, hbv]
  | or a b =>
    rcases List.mem_append.1 (show m' ∈ inputRefs a ++ inputRefs b from hm) with hma | hmb
    · have ha := mem_inputRefs hma
      subst ha
      simp [denoteGateF, denoteInputF, hnone]
    · have hb := mem_inputRefs hmb
      subst hb
      have ha := denoteInputF_no_panic
        (fun m'' (hm'' : m'' ∈ inputRefs a) => hnp m'' (by simp [gateRefs]; exact Or.inl hm''))
      have hbv : denoteInputF dn (.connection (.disconnected m')) = some none := hnone
      cases hda : denoteInputF dn a with
      | none => exact absurd hda ha
      | some ra =>
        cases ra with
        | none => simp [denoteGateF, hda]
        | some x => simp [denoteGateF, hda, hbv]
  | rshift a k =>
    have ha := mem_inputRefs (show m' ∈ inputRefs a from hm)
    subst ha
    simp [denoteGateF, denoteInputF, hnone]
  | lshift a k =>
    have ha := mem_inputRefs (show m' ∈ inputRefs a from hm)
    subst ha
    simp [denoteGateF, denoteInputF, hnone]
  | not a =>
    have ha := mem_inputRefs (show m' ∈ inputRefs a from hm)
    subst ha
    simp [denoteGateF, denoteInputF, hnone]

theorem denoteAt_dangling {l : Defs} {rank : Name → Nat}
    (hrk : rankOk rank l) (hso : shiftOkDefs l) {m dngl : Name}
    (hdep : DependsOn l m dngl) :
    lookupDef l dngl = none → denoteAt l rank m = some none := by
  induction hdep with
  | refl m₀ =>
    intro hmiss
    rw [denoteAt, denoteName_unresolvable hmiss]
  | step hlook hm' hdep ih =>
    intro hmiss
    rw [denoteAt_gate hrk hlook]
    exact denoteGateF_strict hm' (ih hmiss)
      (fun m'' _ => denoteAt_no_panic hrk hso m'')

/-- Shift overflow inside a circuit that also has a dangling reference:
evaluating `d` panics instead of yielding "no signal". -/
def shiftPanicDefs : Defs :=
  [("f", .lshift (.signal 1) 16),
   ("d", .and (.connection (.disconnected "f")) (.connection (.disconnected "b")))]

/-- A reference cycle next to a dangling reference: evaluating `b`
re-borrows `b` and panics instead of yielding "no signal". -/
def reentrantPanicDefs : Defs :=
  [("a", .single (.connection (.disconnected "b"))),
   ("b", .and (.connection (.disconnected "a")) (.connection (.disconnected "z")))]

/-- C8 counterexample: two circuits in which a wire transitively depends
on a dangling name and its evaluation raises a fatal condition (`none`,
the panic) rather than returning "no signal": one through a checked-shift
overflow on another operand, one through a reference cycle. -/
theorem dangling_dependent_can_panic :
    runGet shiftPanicDefs "d" = none ∧ runGet reentrantPanicDefs "b" = none :=
  ⟨rfl, rfl⟩

/-- C8 (amended): in an acyclic circuit whose shift amounts are all below
16, a wire that transitively depends on a name no wire has — and so every
wire transitively depending on that wire — yields "no signal", and its
evaluation never raises a fatal condition. -/
theorem dangling_yields_no_signal (l : Defs) (rank : Name → Nat)
    (hraw : rawDefs l) (hnd : (namesOf l).Nodup) (hrk : rankOk rank l)
    (hso : shiftOkDefs l) (m dngl : Name)
    (hdep : DependsOn l m dngl) (hmiss : lookupDef l dngl = none) :
    runGet l m = some none := by
  rw [runGet_denotes l rank hraw hnd hrk m]
  exact denoteAt_dangling (boundedRank_ok hrk) hso hdep hmiss

/-- `a -> c` with `b -> a` dangling, as raw definitions. -/
def danglingDefs : Defs :=
  [("c", .single (.connection (.disconnected "a"))),
   ("a", .single (.connection (.disconnected "b")))]

/-- A concrete acyclicity rank for `danglingDefs`. -/
def danglingRank : Name → Nat := fun m => if m = "c" then 2 else if m = "a" then 1 else 0

/-- Witness for C8 (amended): both `c` and its dependency `a` yield
"no signal" in `danglingDefs`. -/
theorem dangling_yields_no_signal_witness :
    runGet danglingDefs "c" = some none ∧ runGet danglingDefs "a" = some none :=
  ⟨dangling_yields_no_signal danglingDefs danglingRank
      (by decide : ∀ d ∈ danglingDefs, rawGate d.2 = true)
      (by decide)
      (by decide : ∀ d ∈ danglingDefs, ∀ m ∈ gateRefs d.2,
        (lookupDef danglingDefs m).isSome = true → danglingRank m < danglingRank d.1)
      (by decide : ∀ d ∈ danglingDefs, shiftOkGate d.2 = true)
      "c" "b"
      (@DependsOn.step danglingDefs "c" "a" "b"
        ("c", .single (.connection (.disconnected "a"))) rfl (by decide)
        (@DependsOn.step danglingDefs "a" "b" "b"
          ("a", .single (.connection (.disconnected "b"))) rfl (by decide)
          (DependsOn.refl "b")))
      rfl,
   dangling_yields_no_signal danglingDefs danglingRank
      (by decide : ∀ d ∈ danglingDefs, rawGate d.2 = true)
      (by decide)
      (by decide : ∀ d ∈ danglingDefs, ∀ m ∈ gateRefs d.2,
        (lookupDef danglingDefs m).isSome = true → danglingRank m < danglingRank d.1)
      (by decide : ∀ d ∈ danglingDefs, shiftOkGate d.2 = true)
      "a" "b"
      (@DependsOn.step danglingDefs "a" "b" "b"
        ("a", .single (.connection (.disconnected "b"))) rfl (by decide)
        (DependsOn.refl "b"))
      rfl⟩

/-! ### C7: override and invalidate -/

/-- The definitions after `set(n, v)`: the named definition becomes the
literal pass gate. -/
def updateDefs (l : Defs) (n : Name) (v : Signal) : Defs :=
  l.map fun d => if d.1 = n then (d.1, Gate.single (.signal v)) else d

theorem namesOf_updateDefs (l : Defs) (n : Name) (v : Signal) :
    namesOf (updateDefs l n v) = namesOf l := by
  induction l with
  | nil => rfl
  | cons d l ih =>
    simp only [updateDefs, List.map_cons, namesOf] at ih ⊢
    by_cases hd : d.1 = n <;> simp [hd, ih]

theorem lookupDef_updateDefs_ne (l : Defs) (n : Name) (v : Signal) (m : Name) (hm : m ≠ n) :
    lookupDef (updateDefs l n v) m = lookupDef l m := by
  induction l with
  | nil => rfl
  | cons d l ih =>
    simp only [updateDefs, List.map_cons]
    by_cases hd : d.1 = n
    · rw [if_pos hd]
      have hne : (d.1 == m) = false := by
        simp only [beq_eq_false_iff_ne, ne_eq]
        intro he
        exact hm (by rw [← he, hd])
      rw [lookupDef, lookupDef, List.find?_cons, List.find?_cons]
      simp only [hne]
      exact ih
    · rw [if_neg hd]
      rw [lookupDef, lookupDef, List.find?_cons, List.find?_cons]
      cases hdm : (d.1 == m) with
      | true => rfl
      | false => exact ih

theorem lookupDef_updateDefs_self (l : Defs) (n : Name) (v : Signal) (hn : n ∈ namesOf l) :
    lookupDef (updateDefs l n v) n = some (n, .single (.signal v)) := by
  induction l with
  | nil => simp [namesOf] at hn
  | cons d l ih =>
    simp only [updateDefs, List.map_cons]
    by_cases hd : d.1 = n
    · rw [if_pos hd, lookupDef, List.find?_cons]
      have ht : ((d.1 : Name) == n) = true := by simp [hd]
      simp only [ht, hd, beq_self_eq_true]
    · rw [if_neg hd, lookupDef, List.find?_cons]
      have hf : ((d.1 : Name) == n) = false := by simp [hd]
      simp only [hf]
      have hn' : n ∈ namesOf l := by
        have : n ∈ d.1 :: namesOf l := hn
        rcases List.mem_cons.1 this with h | h
        · exact absurd h.symm hd
        · exact h
      exact ih hn'

theorem rawDefs_updateDefs {l : Defs} (hraw : rawDefs l) (n : Name) (v : Signal) :
    rawDefs (updateDefs l n v) := by
  intro d hd
  rw [updateDefs] at hd
  obtain ⟨d₀, hd₀, he⟩ := List.mem_map.1 hd
  by_cases h : d₀.1 = n
  · rw [if_pos h] at he
    rw [← he]
    rfl
  · rw [if_neg h] at he
    rw [← he]
    exact hraw d₀ hd₀

theorem rankOk_updateDefs {l : Defs} {rank : Name → Nat} (hrk : rankOk rank l)
    (n : Name) (v : Signal) : rankOk rank (updateDefs l n v) := by
  intro d hd m hm hs
  rw [updateDefs] at hd
  obtain ⟨d₀, hd₀, he⟩ := List.mem_map.1 hd
  by_cases h : d₀.1 = n
  · rw [if_pos h] at he
    rw [← he] at hm
    simp [gateRefs, inputRefs] at hm
  · rw [if_neg h] at he
    subst he
    apply hrk d₀ hd₀ m hm
    rw [lookupDef_isSome_iff] at hs ⊢
    rw [namesOf_updateDefs] at hs
    exact hs

theorem idxOfName_congr {l l' : Defs} (h : namesOf l = namesOf l') (m : Name) :
    idxOfName l m = idxOfName l' m := by
  rw [idxOfName, idxOfName, h]

theorem linkConn_congr {l l' : Defs} (h : namesOf l = namesOf l') (co : Connection) :
    linkConn l co = linkConn l' co := by
  cases co with
  | connected j => rfl
  | disconnected m => rw [linkConn, linkConn, idxOfName_congr h]

theorem linkInput_congr {l l' : Defs} (h : namesOf l = namesOf l') (a : Input) :
    linkInput l a = linkInput l' a := by
  cases a with
  | signal s => rfl
  | connection co => rw [linkInput, linkInput, linkConn_congr h]

theorem linkGate_congr {l l' : Defs} (h : namesOf l = namesOf l') (g : Gate) :
    linkGate l g = linkGate l' g := by
  cases g with
  | single a => rw [linkGate, linkGate, linkInput_congr h]
  | and a b => rw [linkGate, linkGate, linkInput_congr h a, linkInput_congr h b]
  | or a b => rw [linkGate, linkGate, linkInput_congr h a, linkInput_congr h b]
  | rshift a k => rw [linkGate, linkGate, linkInput_congr h a]
  | lshift a k => rw [linkGate, linkGate, linkInput_congr h a]
  | not a => rw [linkGate, linkGate, linkInput_congr h a]

/-- The circuits reachable from assembly through any sequence of `get`s. -/
inductive Reaches (l : Defs) : Circuit → Prop where
  | assembled {c : Circuit} : assembleDefs l = some c → Reaches l c
  | step {c c' : Circuit} {m : Name} {r : Option Signal} {k : Nat} :
      Reaches l c → circuitGet c m = some (r, c', k) → Reaches l c'

theorem reaches_evalInv (l : Defs) (rank : Name → Nat)
    (hraw : rawDefs l) (hnd : (namesOf l).Nodup) (hrk : rankOk rank l)
    (hbd : ∀ m', rank m' ≤ l.length) :
    ∀ c, Reaches l c → evalInv l rank c := by
  intro c h
  induction h with
  | assembled hc =>
    rw [assembleDefs_linked l rank hraw hnd hrk] at hc
    injection hc with hc
    rw [← hc]
    exact evalInv_linked rank
  | step hr hget ih =>
    rename_i c₀ c₁ m r k
    have hsim := circuitGet_denotes l rank hraw hnd hrk hbd c₀ ih m
    cases hdm : denoteAt l rank m with
    | none =>
      rw [hdm] at hsim
      have h0 : circuitGet c₀ m = none := hsim
      rw [h0] at hget
      cases hget
    | some res =>
      rw [hdm] at hsim
      obtain ⟨c₂, k₂, heq, hinv₂⟩ := hsim
      rw [heq] at hget
      simp only [Option.some.injEq, Prod.mk.injEq] at hget
      obtain ⟨_, hc, _⟩ := hget
      rw [← hc]
      exact hinv₂

/-- `Circuit::set` on a present name produces exactly the freshly linked
circuit of the updated definitions: the named gate replaced by the literal
pass gate, every cache slot cleared, everything else untouched. -/
theorem circuitSet_updates (l : Defs) (rank : Name → Nat) (hnd : (namesOf l).Nodup)
    (c : Circuit) (hinv : evalInv l rank c) (n : Name) (v : Signal) (hn : n ∈ namesOf l) :
    circuitSet c n v = Except.ok (linkedCircuit (updateDefs l n v)) := by
  obtain ⟨p, d₀, hp, hp1⟩ := exists_idx_of_mem_names hn
  have hpn : (namesOf l).get? p = some n := by rw [namesOf_get? hp, hp1]
  have hnamesR : (resetAll c).map Wire.name = namesOf l := by
    rw [resetAll_names, evalInv_names hinv]
  have hfind : circuitFind (resetAll c) n = some p := by
    rw [circuitFind, findWireIdx, hnamesR]
    have := findIdxFrom_nodup_spec [] n 0 p (namesOf l) hnd hpn (by simp)
    simpa using this
  have hnames' : namesOf l = namesOf (updateDefs l n v) := (namesOf_updateDefs l n v).symm
  simp only [circuitSet, hfind]
  congr 1
  apply List.ext
  intro j
  rw [linkedCircuit, List.get?_map, updateDefs, List.get?_map]
  cases hd : l.get? j with
  | none =>
    have hrn : (resetAll c).get? j = none := by
      rw [List.get?_eq_none]
      rw [List.get?_eq_none] at hd
      have : (resetAll c).length = l.length := by
        rw [resetAll, List.length_map, hinv.1]
      omega
    have h1 : (setGate (resetAll c) p (.single (.signal v))).get? j = none := by
      rw [setGate]
      rw [List.get?_eq_none] at hrn ⊢
      rw [length_updateAt]
      exact hrn
    rw [h1]
    rfl
  | some d =>
    obtain ⟨w, hw, hwn, hwg, _⟩ := hinv.2 j d hd
    have hrw : (resetAll c).get? j = some { w with signal := none } := by
      rw [resetAll, List.get?_map, hw, Option.map_some']
    by_cases hj : j = p
    · subst hj
      rw [hp] at hd
      injection hd with hd
      rw [setGate, get?_updateAt_self _ _ _ _ hrw]
      have hdn : d.1 = n := by rw [← hd, hp1]
      rw [Option.map_some', if_pos hdn, Option.map_some']
      rw [Option.some.injEq]
      show (⟨w.name, Gate.single (.signal v), none⟩ : Wire) =
        ⟨d.1, Gate.single (.signal v), none⟩
      rw [hwn]
    · rw [setGate, get?_updateAt_ne _ _ _ _ hj, hrw]
      have hdn : d.1 ≠ n := by
        intro he
        apply hj
        apply List.get?_inj ?_ hnd ?_
        · rcases Nat.lt_or_ge j l.length with h | h
          · simpa [namesOf] using h
          · rw [List.get?_eq_none.2 h] at hd
            cases hd
        · rw [namesOf_get? hd, he, hpn]
      rw [Option.map_some', if_neg hdn, Option.map_some', Option.some.injEq]
      show (⟨w.name, w.gate, none⟩ : Wire) = ⟨d.1, linkGate (updateDefs l n v) d.2, none⟩
      rw [hwn, hwg, linkGate_congr hnames' d.2]

/-- A name whose definition has no references depends on nothing but itself. -/
theorem not_dependsOn {l : Defs} {m n : Name} (hne : m ≠ n) {d : Name × Gate}
    (hl : lookupDef l m = some d) (hrefs : gateRefs d.2 = []) : ¬ DependsOn l m n := by
  intro h
  cases h with
  | refl => exact hne rfl
  | step hl' hm' hdep =>
    rw [hl] at hl'
    injection hl' with hl'
    rw [← hl'] at hm'
    rw [hrefs] at hm'
    cases hm'

theorem denoteAt_updateDefs_frame (l : Defs) (rank : Name → Nat)
    (hrk : rankOk rank l) (n : Name) (v : Signal) :
    ∀ (r : Nat) (m : Name), rank m < r → ¬ DependsOn l m n →
      denoteAt (updateDefs l n v) rank m = denoteAt l rank m := by
  intro r
  induction r with
  | zero =>
    intro m h
    omega
  | succ r ih =>
    intro m hr hdep
    have hmn : m ≠ n := fun he => hdep (he ▸ DependsOn.refl m)
    cases hres : lookupDef l m with
    | none =>
      have hres' : lookupDef (updateDefs l n v) m = none := by
        rw [lookupDef_updateDefs_ne l n v m hmn]
        exact hres
      rw [denoteAt, denoteAt, denoteName_unresolvable hres, denoteName_unresolvable hres']
    | some d =>
      have hres' : lookupDef (updateDefs l n v) m = some d := by
        rw [lookupDef_updateDefs_ne l n v m hmn]
        exact hres
      rw [denoteAt_gate (rankOk_updateDefs hrk n v) hres', denoteAt_gate hrk hres]
      apply denoteGateF_congr
      intro m' hm'
      have hdep' : ¬ DependsOn l m' n := fun h => hdep (DependsOn.step hres hm' h)
      by_cases hs : (lookupDef l m').isSome = true
      · obtain ⟨hdm, hdn⟩ := lookupDef_props hres
        have hlt : rank m' < rank m := by
          have := hrk d hdm m' hm' hs
          rw [hdn] at this
          exact this
        exact ih m' (by omega) hdep'
      · have hnone : lookupDef l m' = none := by
          cases hx : lookupDef l m' with
          | none => rfl
          | some _ => rw [hx] at hs; simp at hs
        have hnone' : lookupDef (updateDefs l n v) m' = none := by
          cases hx : lookupDef (updateDefs l n v) m' with
          | none => rfl
          | some dd =>
            have : m' ∈ namesOf (updateDefs l n v) :=
              lookupDef_isSome_iff.1 (by rw [hx]; rfl)
            rw [namesOf_updateDefs] at this
            have := lookupDef_isSome_iff.2 this
            rw [hnone] at this
            cases this
        rw [denoteAt, denoteAt, denoteName_unresolvable hnone, denoteName_unresolvable hnone']

/-- **C7.** For every assembled circuit (or any circuit reached from it by
`get` calls) over acyclic, uniquely named raw definitions containing a wire
named `n`, `Circuit::set(n, v)` succeeds and produces exactly the freshly
linked circuit of the updated definitions: every cache slot is cleared, the
named wire's gate is the literal pass gate `Single(Signal(v))`, a subsequent
`get(n)` returns `v`, every wire evaluates as the name-level denotation of
the updated definitions (so transitive dependents of `n` recompute using
`v`), and wires with no dependency path to `n` keep their previous `get`
value. -/
theorem set_overrides_and_invalidates (l : Defs) (rank : Name → Nat)
    (hraw : rawDefs l) (hnd : (namesOf l).Nodup) (hrk : rankOk rank l)
    (c : Circuit) (hc : Reaches l c) (n : Name) (v : Signal) (hn : n ∈ namesOf l) :
    circuitSet c n v = Except.ok (linkedCircuit (updateDefs l n v)) ∧
    (∀ w ∈ linkedCircuit (updateDefs l n v), w.signal = none) ∧
    (∀ w ∈ linkedCircuit (updateDefs l n v), w.name = n →
      w.gate = Gate.single (.signal v)) ∧
    getValue (linkedCircuit (updateDefs l n v)) n = some (some v) ∧
    (∀ m, getValue (linkedCircuit (updateDefs l n v)) m =
      denoteAt (updateDefs l n v) (boundedRank l rank) m) ∧
    (∀ m, ¬ DependsOn l m n →
      getValue (linkedCircuit (updateDefs l n v)) m = getValue c m) := by
  have hok := boundedRank_ok hrk
  have hbd := boundedRank_le l rank
  have hinv := reaches_evalInv l (boundedRank l rank) hraw hnd hok hbd c hc
  have hraw' := rawDefs_updateDefs hraw n v
  have hnd' : (namesOf (updateDefs l n v)).Nodup := by
    rw [namesOf_updateDefs]
    exact hnd
  have hok' := rankOk_updateDefs hok n v
  have hbd' : ∀ m', boundedRank l rank m' ≤ (updateDefs l n v).length := by
    intro m'
    rw [updateDefs, List.length_map]
    exact hbd m'
  have hinv' := evalInv_linked (l := updateDefs l n v) (boundedRank l rank)
  have hval : ∀ m, getValue (linkedCircuit (updateDefs l n v)) m =
      denoteAt (updateDefs l n v) (boundedRank l rank) m :=
    fun m => getValue_denotes (updateDefs l n v) (boundedRank l rank)
      hraw' hnd' hok' hbd' (linkedCircuit (updateDefs l n v)) hinv' m
  refine ⟨circuitSet_updates l (boundedRank l rank) hnd c hinv n v hn, ?_, ?_, ?_, hval, ?_⟩
  · intro w hw
    rw [linkedCircuit] at hw
    obtain ⟨d, _, he⟩ := List.mem_map.1 hw
    rw [← he]
  · intro w hw hwn
    rw [linkedCircuit] at hw
    obtain ⟨d, hd, he⟩ := List.mem_map.1 hw
    rw [updateDefs] at hd
    obtain ⟨e, he₀, hde⟩ := List.mem_map.1 hd
    by_cases hen : e.1 = n
    · rw [if_pos hen] at hde
      rw [← he, ← hde]
      rfl
    · rw [if_neg hen] at hde
      exfalso
      apply hen
      have hwd : w.name = d.1 := by rw [← he]
      rw [hde, ← hwd]
      exact hwn
  · rw [hval n, denoteAt_gate hok' (lookupDef_updateDefs_self l n v hn)]
    rfl
  · intro m hdep
    rw [hval m]
    rw [denoteAt_updateDefs_frame l (boundedRank l rank) hok n v
      (boundedRank l rank m + 1) m (by omega) hdep]
    rw [getValue_denotes l (boundedRank l rank) hraw hnd hok hbd c hinv m]

theorem set_overrides_and_invalidates_witness :
    circuitSet (linkedCircuit exampleDefsA) "d" 7 =
      Except.ok (linkedCircuit (updateDefs exampleDefsA "d" 7)) ∧
    getValue (linkedCircuit (updateDefs exampleDefsA "d" 7)) "d" = some (some 7) ∧
    getValue (linkedCircuit (updateDefs exampleDefsA "d" 7)) "x" =
      getValue (linkedCircuit exampleDefsA) "x" := by
  have h := set_overrides_and_invalidates exampleDefsA exampleRank
    (by decide : ∀ d ∈ exampleDefsA, rawGate d.2 = true)
    (by decide)
    (by decide : ∀ d ∈ exampleDefsA, ∀ m ∈ gateRefs d.2,
      (lookupDef exampleDefsA m).isSome = true → exampleRank m < exampleRank d.1)
    (linkedCircuit exampleDefsA)
    (Reaches.assembled (by rfl))
    "d" 7 (by decide)
  exact ⟨h.1, h.2.2.2.1, h.2.2.2.2.2 "x" (not_dependsOn (by decide) rfl rfl)⟩
